import Mathlib

/-!
Verification development for the vmill guest address space
(src/vmill/Program/AddressSpace.cpp) and trace decoder
(src/vmill/Arch/Decoder.cpp).

Machine integers are modelled as Nat with explicit reductions modulo
2^64 where the C++ relies on uint64_t wrap-around.  Page constants
follow the source (kPageSize = 4096).  The MappedRange backing-store
class is not part of the given sources; its byte-level contract and
the code-version token discipline are modelled from the spec and are
marked as such in the doc comments below.
-/

namespace Vmill

/-- Size of one guest page, from the enum kPageSize in AddressSpace.cpp. -/
def kPageSize : Nat := 4096

/-- Modulus of 64-bit machine arithmetic. -/
def WORD : Nat := 2 ^ 64

/-- AlignDownToPage from AddressSpace.cpp: addr with the low 12 bits
cleared.  For addr below 2^64 the bitwise form in the source equals
this division form. -/
def alignDownToPage (a : Nat) : Nat := a / kPageSize * kPageSize

/-- RoundUpToPage from AddressSpace.cpp, with the uint64 wrap of
size + kPageShift made explicit. -/
def roundUpToPage (sz : Nat) : Nat := (sz + (kPageSize - 1)) % WORD / kPageSize * kPageSize

/-- Two-complement subtraction a - b on 64-bit words, for the places
where the C++ subtracts uint64 values that may underflow. -/
def sub64 (a b : Nat) : Nat := (WORD + a - b % WORD) % WORD

/-- GetAddressMask for a 64-bit guest architecture. -/
def mask64 : Nat := WORD - 1

/-- One mapped range.  Geometry (base, limit, validity) is read off
AddressSpace.cpp; mem is the byte backing at absolute guest addresses.

Modelled from the spec: the MappedRange class itself is not in the
sources.  Per spec 4.1, reads and writes succeed iff the address is in
[base, limit) and the range is not a tombstone; cv is the lazily
cached code-version token of spec 4.1/4.2, None when invalidated. -/
structure MappedRange where
  base : Nat
  limit : Nat
  isValid : Bool
  mem : Nat → Nat
  cv : Option Nat

namespace MappedRange

/-- Modelled from the spec: MappedRange read succeeds iff the range is
valid and base <= addr < limit. -/
def read (r : MappedRange) (a : Nat) : Option Nat :=
  if r.isValid && decide (r.base ≤ a) && decide (a < r.limit) then some (r.mem a) else none

/-- Modelled from the spec: MappedRange write of one byte, with the
same domain as read; the stored byte is truncated to 8 bits. -/
def write (r : MappedRange) (a v : Nat) : Option MappedRange :=
  if r.isValid && decide (r.base ≤ a) && decide (a < r.limit) then
    some { r with mem := fun x => if x = a then v % 256 else r.mem x }
  else none

/-- Modelled from the spec: a sub-range sharing the backing bytes,
used by the RemoveRange splitting in AddressSpace.cpp. -/
def copy (r : MappedRange) (b l : Nat) : MappedRange :=
  { r with base := b, limit := l }

/-- MappedRange::InvalidateCodeVersion, modelled from the spec: the
cached token is dropped so that the next computation issues a fresh
one. -/
def invalidateCodeVersion (r : MappedRange) : MappedRange :=
  { r with cv := none }

/-- Modelled from the spec: whether ToReadOnlyVirtualAddress or
ToReadWriteVirtualAddress yields a non-null pointer for this address:
the range must be valid and contain the address. -/
def ptrOk (r : MappedRange) (a : Nat) : Bool :=
  r.isValid && decide (r.base ≤ a) && decide (a < r.limit)

/-- MappedRange::CreateInvalid: the tombstone covering [b, l). -/
def createInvalid (b l : Nat) : MappedRange :=
  { base := b, limit := l, isValid := false, mem := fun _ => 0, cv := none }

/-- MappedRange::Create: a fresh zero-filled valid range. -/
def create (b l : Nat) : MappedRange :=
  { base := b, limit := l, isValid := true, mem := fun _ => 0, cv := none }

end MappedRange

/-- Lookup of a range id in the object store (the model of the heap of
shared MappedRange objects referenced by the maps vector and by the
page indices). -/
def lookupStore : List (Nat × MappedRange) → Nat → Option MappedRange
  | [], _ => none
  | (k, r) :: rest, id => if k = id then some r else lookupStore rest id

/-- Replace the object with the given id in the store. -/
def setStore : List (Nat × MappedRange) → Nat → MappedRange → List (Nat × MappedRange)
  | [], _, _ => []
  | (k, r) :: rest, id, v =>
    if k = id then (k, v) :: rest else (k, r) :: setStore rest id v

/-- The validity-and-containment test used when rebuilding the page
indices: the id dereferences to a valid range whose span contains the
page. -/
def containsValid (store : List (Nat × MappedRange)) (p id : Nat) : Bool :=
  match lookupStore store id with
  | none => false
  | some r => r.isValid && decide (r.base ≤ p) && decide (p < r.limit)

/-- The guest address space of AddressSpace.cpp.  The maps vector and
the two page indices reference shared MappedRange objects through the
store; ptm and wnx are page_to_map and wnx_page_to_map as functions
from an aligned page address to a range id. -/
structure AddressSpace where
  store : List (Nat × MappedRange)
  nextId : Nat
  maps : List Nat
  invalidId : Nat
  pageIsReadable : Nat → Bool
  pageIsWritable : Nat → Bool
  pageIsExecutable : Nat → Bool
  ptm : Nat → Option Nat
  wnx : Nat → Option Nat
  traceHeads : List Nat
  addrMask : Nat
  versionCode : Bool
  cnt : Nat
  isDead : Bool

namespace AddressSpace

/-- Dereference a range id, the dangling-id default being an empty
tombstone (never hit in well-formed states). -/
def getR (s : AddressSpace) (id : Nat) : MappedRange :=
  (lookupStore s.store id).getD (MappedRange.createInvalid 0 0)

/-- Overwrite the object with the given id. -/
def setR (s : AddressSpace) (id : Nat) (r : MappedRange) : AddressSpace :=
  { s with store := setStore s.store id r }

/-- Push a fresh MappedRange object into the store, returning its id. -/
def intern (s : AddressSpace) (r : MappedRange) : Nat × AddressSpace :=
  (s.nextId, { s with store := s.store ++ [(s.nextId, r)], nextId := s.nextId + 1 })

/-- The per-access address mask application: addr & addr_mask.  For
the all-ones and 32-bit masks of GetAddressMask this is reduction
modulo mask + 1. -/
def maskAddr (s : AddressSpace) (a : Nat) : Nat := a % (s.addrMask + 1)

/-- AddressSpace::CanReadAligned. -/
def canReadAligned (s : AddressSpace) (p : Nat) : Bool := s.pageIsReadable p

/-- AddressSpace::CanWriteAligned. -/
def canWriteAligned (s : AddressSpace) (p : Nat) : Bool := s.pageIsWritable p

/-- AddressSpace::CanExecuteAligned. -/
def canExecuteAligned (s : AddressSpace) (p : Nat) : Bool := s.pageIsExecutable p

/-- AddressSpace::CanRead (masks, then aligns the address). -/
def canRead (s : AddressSpace) (a : Nat) : Bool :=
  s.pageIsReadable (alignDownToPage (s.maskAddr a))

/-- AddressSpace::CanWrite. -/
def canWrite (s : AddressSpace) (a : Nat) : Bool :=
  s.pageIsWritable (alignDownToPage (s.maskAddr a))

/-- AddressSpace::CanExecute. -/
def canExecute (s : AddressSpace) (a : Nat) : Bool :=
  s.pageIsExecutable (alignDownToPage (s.maskAddr a))

/-- AddressSpace::FindRangeAligned without the two direct-mapped
accelerator caches (they only cache successful page_to_map hits): the
page_to_map entry, or the invalid sentinel. -/
def findRangeIdAligned (s : AddressSpace) (p : Nat) : Nat :=
  (s.ptm p).getD s.invalidId

/-- AddressSpace::FindRange. -/
def findRangeId (s : AddressSpace) (a : Nat) : Nat :=
  s.findRangeIdAligned (alignDownToPage a)

/-- AddressSpace::FindWNXRangeAligned, likewise without the caches. -/
def findWNXRangeIdAligned (s : AddressSpace) (p : Nat) : Nat :=
  (s.wnx p).getD s.invalidId

/-- AddressSpace::FindWNXRange. -/
def findWNXRangeId (s : AddressSpace) (a : Nat) : Nat :=
  s.findWNXRangeIdAligned (alignDownToPage a)

/-- AddressSpace::MarkAsTraceHead: trace_heads.insert(pc). -/
def markAsTraceHead (s : AddressSpace) (pc : Nat) : AddressSpace :=
  if pc ∈ s.traceHeads then s else { s with traceHeads := pc :: s.traceHeads }

/-- AddressSpace::IsMarkedTraceHead. -/
def isMarkedTraceHead (s : AddressSpace) (pc : Nat) : Bool :=
  decide (pc ∈ s.traceHeads)

/-- AddressSpace::IsMapped: dead spaces report nothing mapped; else
the page_to_map entry for the aligned (unmasked, as in the source)
address must exist and be a valid range. -/
def isMapped (s : AddressSpace) (a : Nat) : Bool :=
  if s.isDead then false
  else
    match s.ptm (alignDownToPage a) with
    | none => false
    | some id => (s.getR id).isValid

/-- AddressSpace::Kill: clears the maps vector and page_to_map and
sets the death flag.  Faithful to the source, wnx_page_to_map and the
three permission sets are left untouched. -/
def kill (s : AddressSpace) : AddressSpace :=
  { s with maps := [], ptm := fun _ => none, isDead := true }

/-- AddressSpace::ComputeCodeVersion.  The token discipline is
modelled from the spec (MappedRange internals are not in the sources):
a cached token is returned as is; otherwise a fresh token is drawn
from a monotone counter and cached, so fresh tokens are unique across
the life of the address space. -/
def computeCodeVersion (s : AddressSpace) (pc : Nat) : Nat × AddressSpace :=
  if s.versionCode then
    let id := s.findRangeId (s.maskAddr pc)
    let r := s.getR id
    match r.cv with
    | some t => (t, s)
    | none => (s.cnt, { s.setR id { r with cv := some s.cnt } with cnt := s.cnt + 1 })
  else (0, s)

/-- The inner byte loop of TryRead with an explicit countdown of the
remaining addresses: read ascending addresses, accumulating bytes;
false on the first failing byte.  Returns the final address as well. -/
def mrReadN (r : MappedRange) (a : Nat) (acc : List Nat) : Nat → Nat × List Nat × Bool
  | 0 => (a, acc, true)
  | n + 1 =>
    match r.read a with
    | none => (a, acc, false)
    | some b => mrReadN r (a + 1) (acc ++ [b]) n

/-- The inner byte loop of TryRead over the address interval
[a, stop). -/
def mrReadSeq (r : MappedRange) (a stop : Nat) (acc : List Nat) : Nat × List Nat × Bool :=
  mrReadN r a acc (stop - a)

/-- The inner byte loop of TryWrite with an explicit countdown: write
bytes from the stream at ascending addresses; on a failing byte the
writes so far are kept, as in the source.  Returns the updated range,
the final address, the unconsumed stream and the success flag. -/
def mrWriteN (r : MappedRange) (a : Nat) (bs : List Nat) :
    Nat → MappedRange × Nat × List Nat × Bool
  | 0 => (r, a, bs, true)
  | n + 1 =>
    match bs with
    | [] => (r, a, [], true)
    | b :: rest =>
      match r.write a b with
      | none => (r, a, b :: rest, false)
      | some r2 => mrWriteN r2 (a + 1) rest n

/-- The inner byte loop of TryWrite over the address interval
[a, stop). -/
def mrWriteSeq (r : MappedRange) (a stop : Nat) (bs : List Nat) :
    MappedRange × Nat × List Nat × Bool :=
  mrWriteN r a bs (stop - a)

/-- The per-page loop of AddressSpace::TryRead(addr, out, size). -/
def tryReadLoop (s : AddressSpace) (pageAddr a endAddr : Nat) (acc : List Nat) :
    Nat → Bool × List Nat
  | 0 => (true, acc)
  | fuel + 1 =>
    if pageAddr < endAddr then
      let r := s.getR (s.findRangeIdAligned pageAddr)
      let nextEnd := min endAddr (pageAddr + kPageSize)
      let (a2, acc2, ok) := mrReadSeq r a nextEnd acc
      if ok then tryReadLoop s (pageAddr + kPageSize) a2 endAddr acc2 fuel
      else (false, acc2)
    else (true, acc)

/-- AddressSpace::TryRead(addr, val_out, size): cross-page byte read;
the returned list holds the bytes successfully streamed out. -/
def tryRead (s : AddressSpace) (addr0 size : Nat) : Bool × List Nat :=
  let a := s.maskAddr addr0
  let endAddr := (a + size) % WORD
  tryReadLoop s (alignDownToPage a) a endAddr [] (size / kPageSize + 2)

/-- The byte writes of one writable page of the TryWrite loop, done on
the state the SMC bookkeeping produced: stream bytes into the page's
range up to the page end or the overall end. -/
def tryWritePageRun (s1 : AddressSpace) (id pageAddr a endAddr : Nat) (bs : List Nat) :
    AddressSpace × Nat × List Nat × Bool :=
  match mrWriteSeq (s1.getR id) a (min endAddr (pageAddr + kPageSize)) bs with
  | (r2, a2, rest, ok) => (s1.setR id r2, a2, rest, ok)

/-- The SMC bookkeeping then the byte writes of one page. -/
def tryWritePageStep (s : AddressSpace) (pageAddr a endAddr : Nat) (bs : List Nat) :
    AddressSpace × Nat × List Nat × Bool :=
  tryWritePageRun
    (if s.versionCode && s.canExecuteAligned pageAddr then
      { s.setR (s.findRangeIdAligned pageAddr)
          ((s.getR (s.findRangeIdAligned pageAddr)).invalidateCodeVersion) with
        traceHeads := [] }
    else s)
    (s.findRangeIdAligned pageAddr) pageAddr a endAddr bs

/-- The per-page loop of AddressSpace::TryWrite(addr, val, size): an
unwritable page fails before anything happens on it; otherwise the
page step runs and a failing byte stops the loop with the earlier
writes kept. -/
def tryWriteLoop (s : AddressSpace) (pageAddr a endAddr : Nat) (bs : List Nat) :
    Nat → Bool × AddressSpace
  | 0 => (true, s)
  | fuel + 1 =>
    if pageAddr < endAddr then
      if !s.canWriteAligned pageAddr then (false, s)
      else
        match tryWritePageStep s pageAddr a endAddr bs with
        | (s2, a2, rest, ok) =>
          if ok then tryWriteLoop s2 (pageAddr + kPageSize) a2 endAddr rest fuel
          else (false, s2)
    else (true, s)

/-- AddressSpace::TryWrite(addr, val, size): cross-page byte write. -/
def tryWrite (s : AddressSpace) (addr0 : Nat) (bs : List Nat) : Bool × AddressSpace :=
  let a := s.maskAddr addr0
  let endAddr := (a + bs.length) % WORD
  tryWriteLoop s (alignDownToPage a) a endAddr bs (bs.length / kPageSize + 2)

/-- AddressSpace::TryRead(addr, uint8_t*): one byte through FindRange. -/
def tryReadByte (s : AddressSpace) (addr0 : Nat) : Option Nat :=
  let a := s.maskAddr addr0
  (s.getR (s.findRangeId a)).read a

/-- Little-endian decomposition of a value into n bytes. -/
def toBytesLE (n v : Nat) : List Nat :=
  (List.range n).map fun i => v / 256 ^ i % 256

/-- Little-endian recomposition of a byte list. -/
def fromBytesLE (bs : List Nat) : Nat :=
  bs.foldr (fun b acc => b + 256 * acc) 0

/-- The MAKE_TRY_READ fast path for an n-byte scalar: a non-null
read-only pointer, containment of both ends in the range and a single
page give a direct load; otherwise the byte path runs.  A null pointer
fails outright, as in the source. -/
def tryReadScalar (s : AddressSpace) (addr0 n : Nat) : Bool × Nat :=
  let a := s.maskAddr addr0
  let r := s.getR (s.findRangeId a)
  if !r.ptrOk a then (false, 0)
  else
    let endAddr := a + n - 1
    if r.base ≤ a && decide (endAddr < r.limit)
        && decide (alignDownToPage a = alignDownToPage endAddr) then
      (true, fromBytesLE ((List.range n).map fun i => r.mem (a + i)))
    else
      let (ok, bs) := tryRead s a n
      (ok, fromBytesLE bs)

/-- AddressSpace::TryWrite(addr, uint8_t): the FindWNXRange fast path
for one byte, falling back to the byte path. -/
def tryWriteByte (s : AddressSpace) (addr0 v : Nat) : Bool × AddressSpace :=
  let a := s.maskAddr addr0
  let id := s.findWNXRangeId a
  match (s.getR id).write a v with
  | some r2 => (true, s.setR id r2)
  | none => tryWrite s a [v]

/-- The MAKE_TRY_WRITE fast path for an n-byte scalar through
FindWNXRange; any miss falls back to the byte path on the value's
little-endian bytes. -/
def tryWriteScalar (s : AddressSpace) (addr0 n v : Nat) : Bool × AddressSpace :=
  let a := s.maskAddr addr0
  let id := s.findWNXRangeId a
  let r := s.getR id
  let endAddr := a + n - 1
  if r.ptrOk a && r.base ≤ a && decide (endAddr < r.limit)
      && decide (alignDownToPage a = alignDownToPage endAddr) then
    (true, s.setR id { r with mem := fun x =>
      if a ≤ x ∧ x < a + n then v / 256 ^ (x - a) % 256 else r.mem x })
  else tryWrite s a (toBytesLE n v)

/-- AddressSpace::TryReadExecutable: a range-level byte read that also
requires execute permission on the page. -/
def tryReadExecutable (s : AddressSpace) (pc : Nat) : Option Nat :=
  let a := s.maskAddr pc
  let pageAddr := alignDownToPage a
  let r := s.getR (s.findRangeIdAligned pageAddr)
  match r.read a with
  | some b => if s.canExecuteAligned pageAddr then some b else none
  | none => none

/-- Insertion into an ascending list of range ids, ordering by range
base address: one step of the std sort in CreatePageToRangeMap. -/
def insertByBase (s : AddressSpace) (id : Nat) : List Nat → List Nat
  | [] => [id]
  | j :: rest =>
    if (s.getR id).base ≤ (s.getR j).base then id :: j :: rest
    else j :: insertByBase s id rest

/-- The maps vector sorted by base address, as CreatePageToRangeMap
leaves it. -/
def sortMaps (s : AddressSpace) : List Nat → List Nat
  | [] => []
  | id :: rest => insertByBase s id (sortMaps s rest)

/-- The page_to_map contents as a lookup function: the last valid
range in iteration order whose span contains the page wins (matching
the overwriting unordered_map assignment in the source), provided the
page has at least one permission. -/
def lastValidContaining (store : List (Nat × MappedRange)) (ids : List Nat) (p : Nat) :
    Option Nat :=
  ids.foldl (fun acc id => if containsValid store p id then some id else acc) none

/-- The page_to_map index rebuilt from the store, the sorted maps and
the permission sets: pages holding any of the three permissions map to
their valid range. -/
def mkPtm (store : List (Nat × MappedRange)) (ids : List Nat)
    (pr pw px : Nat → Bool) (p : Nat) : Option Nat :=
  match lastValidContaining store ids p with
  | some id => if pr p || pw p || px p then some id else none
  | none => none

/-- The wnx_page_to_map index: only pages that are writable and not
executable map to their valid range. -/
def mkWnx (store : List (Nat × MappedRange)) (ids : List Nat)
    (pw px : Nat → Bool) (p : Nat) : Option Nat :=
  match lastValidContaining store ids p with
  | some id => if pw p && !px p then some id else none
  | none => none

/-- AddressSpace::CreatePageToRangeMap: sorts the maps by base address
and rebuilds both page indices from the current ranges and permission
sets. -/
def createPageToRangeMap (s : AddressSpace) : AddressSpace :=
  let sorted := sortMaps s s.maps
  { s with
    maps := sorted
    ptm := mkPtm s.store sorted s.pageIsReadable s.pageIsWritable s.pageIsExecutable
    wnx := mkWnx s.store sorted s.pageIsWritable s.pageIsExecutable }

/-- AddressSpace::SetPermissions: page-granularity update of the three
permission sets over [align(base), align(base) + roundUp(size)),
followed by the index rebuild. -/
def setPermissions (s : AddressSpace) (base0 size : Nat) (r w x : Bool) : AddressSpace :=
  let base := alignDownToPage base0
  let limit := (base + roundUpToPage size) % WORD
  let upd : (Nat → Bool) → Bool → Nat → Bool := fun f b p =>
    if base ≤ p ∧ p < limit ∧ p % kPageSize = 0 then b else f p
  createPageToRangeMap
    { s with
      pageIsReadable := upd s.pageIsReadable r
      pageIsWritable := upd s.pageIsWritable w
      pageIsExecutable := upd s.pageIsExecutable x }

/-- One map's contribution to RemoveRange in AddressSpace.cpp, with
the guards in source order: no overlap keeps the map; full containment
in [base, limit) drops it; strict containment of [base, limit) splits
it in two copies; a map starting at base keeps its upper part; every
remaining overlap keeps the copy from the map's base to base. -/
def removeRangeOne (s : AddressSpace) (id base limit : Nat) : AddressSpace × List Nat :=
  let r := s.getR id
  if r.limit ≤ base || decide (r.base ≥ limit) then (s, [id])
  else if r.base ≥ base && decide (r.limit ≤ limit) then (s, [])
  else if r.base < base && decide (r.limit > limit) then
    let (i1, s1) := s.intern (r.copy r.base base)
    let (i2, s2) := s1.intern (r.copy limit r.limit)
    (s2, [i1, i2])
  else if r.base = base then
    let (i, s1) := s.intern (r.copy limit r.limit)
    (s1, [i])
  else
    let (i, s1) := s.intern (r.copy r.base base)
    (s1, [i])

/-- RemoveRange over the whole maps vector. -/
def removeRangeList (s : AddressSpace) (base limit : Nat) : List Nat → AddressSpace × List Nat
  | [] => (s, [])
  | id :: rest =>
    let (s1, kept) := removeRangeOne s id base limit
    let (s2, restKept) := removeRangeList s1 base limit rest
    (s2, kept ++ restKept)

/-- AddressSpace::CreateMap (the name and file offset only select the
backing provider and are dropped here): a dead space is left
untouched; otherwise overlapping parts of existing maps are removed,
the fresh range is appended, and the region gets default R+W
permissions, which also rebuilds the indices. -/
def createMap (s : AddressSpace) (base0 size : Nat) : AddressSpace :=
  let base := alignDownToPage base0
  let limit := min ((base + roundUpToPage size) % WORD) s.addrMask
  if s.isDead then s
  else
    let (s1, kept) := removeRangeList s base limit s.maps
    let (newId, s2) := s1.intern (MappedRange.create base limit)
    let s3 := { s2 with maps := kept ++ [newId] }
    setPermissions s3 base (limit - base) true true false

/-- AddressSpace::AddMap(base, size, name, offset). -/
def addMap (s : AddressSpace) (base0 size : Nat) : AddressSpace :=
  createMap s base0 size

/-- AddressSpace::RemoveMap: the covered region is replaced with a
tombstone and stripped of all permissions. -/
def removeMap (s : AddressSpace) (base0 size : Nat) : AddressSpace :=
  let base := alignDownToPage base0
  let limit := min ((base + roundUpToPage size) % WORD) s.addrMask
  if s.isDead then s
  else
    let (s1, kept) := removeRangeList s base limit s.maps
    let (newId, s2) := s1.intern (MappedRange.createInvalid base limit)
    let s3 := { s2 with maps := kept ++ [newId] }
    setPermissions s3 base (limit - base) false false false

/-- The body of the FindHole reverse walk: each invalid range offers
its own span as a candidate hole; a valid range with a lower neighbour
offers the gap between them; the lowest valid range stops the walk;
a candidate below min stops it too. -/
def findHoleLoop (s : AddressSpace) (minA maxA size : Nat) : List Nat → Option Nat
  | [] => none
  | id :: rest =>
    let rHigh := s.getR id
    let cand : Option (Nat × Nat) :=
      if !rHigh.isValid then some (rHigh.limit, rHigh.base)
      else
        match rest with
        | [] => none
        | idLow :: _ => some (rHigh.base, (s.getR idLow).limit)
    match cand with
    | none => none
    | some (highBase, lowLimit) =>
      if highBase < minA then none
      else if lowLimit ≥ maxA then findHoleLoop s minA maxA size rest
      else
        let allocMax := min maxA highBase
        let allocMin := max minA lowLimit
        if sub64 allocMax allocMin < size then findHoleLoop s minA maxA size rest
        else some (sub64 allocMax size)

/-- AddressSpace::FindHole(min, max, size): the guards on size and on
the aligned bounds, then the reverse walk over the sorted maps. -/
def findHole (s : AddressSpace) (min0 max0 size0 : Nat) : Option Nat :=
  if size0 = 0 then none
  else
    let minA := alignDownToPage min0
    let maxA := alignDownToPage max0
    if minA ≥ maxA then none
    else
      let size := roundUpToPage size0
      if size > maxA - minA then none
      else findHoleLoop s minA maxA size s.maps.reverse

/-- The AddressSpace constructor for an architecture with the given
address mask: one invalid sentinel range covering [0, mask), empty
permission sets, and the index rebuild the constructor performs.  The
code-versioning configuration flag FLAGS_version_code is a field. -/
def init (mask : Nat) (vc : Bool) : AddressSpace :=
  createPageToRangeMap
    { store := [(0, MappedRange.createInvalid 0 mask)]
      nextId := 1
      maps := [0]
      invalidId := 0
      pageIsReadable := fun _ => false
      pageIsWritable := fun _ => false
      pageIsExecutable := fun _ => false
      ptm := fun _ => none
      wnx := fun _ => none
      traceHeads := []
      addrMask := mask
      versionCode := vc
      cnt := 1
      isDead := false }

end AddressSpace

/-- The remill instruction categories from Decoder.cpp. -/
inductive InstrCategory
  | invalid
  | error
  | normal
  | noOp
  | directJump
  | indirectJump
  | directFunctionCall
  | indirectFunctionCall
  | functionReturn
  | conditionalBranch
  | asyncHyperCall
  | conditionalAsyncHyperCall
deriving DecidableEq

/-- The slice of remill::Instruction the decoder consumes: category,
raw bytes and the three successor program counters. -/
structure Instruction where
  category : InstrCategory
  bytes : List Nat
  nextPc : Nat
  branchTakenPc : Nat
  branchNotTakenPc : Nat

/-- Insertion into the ascending duplicate-free list modelling the
std set DecoderWorkList. -/
def setInsert (x : Nat) : List Nat → List Nat
  | [] => [x]
  | y :: rest =>
    if x < y then x :: y :: rest
    else if x = y then y :: rest
    else y :: setInsert x rest

/-- AddSuccessorsToWorkList from Decoder.cpp: which successor PCs of
an instruction continue the current trace. -/
def addSuccessorsToWorkList (inst : Instruction) (wl : List Nat) : List Nat :=
  match inst.category with
  | .invalid | .error | .indirectJump | .functionReturn | .asyncHyperCall => wl
  | .indirectFunctionCall | .directFunctionCall => setInsert inst.branchNotTakenPc wl
  | .normal | .noOp => setInsert inst.nextPc wl
  | .conditionalAsyncHyperCall => setInsert inst.branchNotTakenPc wl
  | .directJump => setInsert inst.branchTakenPc wl
  | .conditionalBranch => setInsert inst.nextPc (setInsert inst.branchTakenPc wl)

/-- AddSuccessorsToTraceList from Decoder.cpp: only a direct call
whose callee differs from its return site seeds a future trace. -/
def addSuccessorsToTraceList (inst : Instruction) (tl : List Nat) : List Nat :=
  match inst.category with
  | .directFunctionCall =>
    if inst.branchTakenPc ≠ inst.branchNotTakenPc then setInsert inst.branchTakenPc tl else tl
  | _ => tl

/-- Insertion into the PC-sorted instruction map of a trace (the std
map keyed by PC). -/
def imInsert (k : Nat) (v : Instruction) :
    List (Nat × Instruction) → List (Nat × Instruction)
  | [] => [(k, v)]
  | (k2, v2) :: rest =>
    if k < k2 then (k, v) :: (k2, v2) :: rest
    else if k = k2 then (k, v) :: rest
    else (k2, v2) :: imInsert k v rest

/-- Membership in the instruction map (map::count). -/
def imContains (k : Nat) (m : List (Nat × Instruction)) : Bool :=
  m.any fun kv => kv.1 = k

/-- TraceId from Decoder.h: hash1 holds the entry PC, hash2 the
content digest. -/
structure TraceId where
  hash1 : Nat
  hash2 : Nat
deriving DecidableEq

/-- DecodedTrace: entry PC, code version at decode time, TraceId and
the PC-sorted instruction map. -/
structure DecodedTrace where
  pc : Nat
  codeVersion : Nat
  id : TraceId
  instructions : List (Nat × Instruction)

/-- Modelled from the spec: the Hasher of vmill/Util/Hash.h (xxHash)
is not in the sources; any deterministic 64-bit digest of a seed and a
byte stream satisfies the interface the decoder relies on.  This
stand-in is an FNV-style fold reduced modulo 2^64. -/
def digest (seed : Nat) (bs : List Nat) : Nat :=
  bs.foldl (fun h b => (h * 16777619 + b) % WORD) (seed % WORD)

/-- HashTraceInstructions from Decoder.cpp: min and max PC default to
1 on an empty trace, the digest is seeded with min_pc * max_pc *
instruction_count (64-bit wrap) and folded over the instruction bytes
in PC order. -/
def hashTraceInstructions (tr : DecodedTrace) : TraceId :=
  let insts := tr.instructions
  let minPc := match insts.head? with | some kv => kv.1 | none => 1
  let maxPc := match insts.getLast? with | some kv => kv.1 | none => 1
  let seed := minPc * maxPc * insts.length % WORD
  { hash1 := tr.pc
    hash2 := digest seed (insts.foldl (fun acc kv => acc ++ kv.2.bytes) []) }

/-- The architecture interface the decoder needs: the maximum
instruction size and the external remill DecodeInstruction, which
fills an instruction record and reports success. -/
structure ArchModel where
  maxInstSize : Nat
  decode : Nat → List Nat → Bool × Instruction

/-- ReadInstructionBytes from Decoder.cpp: up to maxInstSize bytes via
TryReadExecutable, stopping at the first non-executable byte. -/
def readInstructionBytesGo (s : AddressSpace) (pc : Nat) : Nat → List Nat
  | 0 => []
  | n + 1 =>
    match AddressSpace.tryReadExecutable s pc with
    | none => []
    | some b => b :: readInstructionBytesGo s (pc + 1) n

/-- ReadInstructionBytes wrapper. -/
def readInstructionBytes (arch : ArchModel) (s : AddressSpace) (pc : Nat) : List Nat :=
  readInstructionBytesGo s pc arch.maxInstSize

/-- The intra-trace work-list loop of DecodeTraces: pop the least PC,
skip if already decoded, read and decode, record the instruction, and
on success enqueue its successors. -/
def decodeIntraLoop (arch : ArchModel) (s : AddressSpace) (trace : DecodedTrace)
    (workList traceList : List Nat) : Nat → DecodedTrace × List Nat × AddressSpace
  | 0 => (trace, traceList, s)
  | fuel + 1 =>
    match workList with
    | [] => (trace, traceList, s)
    | pc :: rest =>
      if imContains pc trace.instructions then
        decodeIntraLoop arch s trace rest traceList fuel
      else
        let bytes := readInstructionBytes arch s pc
        let (ok, inst) := arch.decode pc bytes
        let trace2 := { trace with instructions := imInsert pc inst trace.instructions }
        if !ok then decodeIntraLoop arch s trace2 rest traceList fuel
        else
          decodeIntraLoop arch s trace2 (addSuccessorsToWorkList inst rest)
            (addSuccessorsToTraceList inst traceList) fuel

/-- The inter-trace loop of DecodeTraces: pop the least pending entry
PC, skip trace heads already decoded, otherwise mark it, record the
code version, run the intra-trace loop, hash and emit the trace. -/
def decodeOuterLoop (arch : ArchModel) (s : AddressSpace) (traceList : List Nat)
    (acc : List DecodedTrace) : Nat → List DecodedTrace × AddressSpace
  | 0 => (acc, s)
  | fuel + 1 =>
    match traceList with
    | [] => (acc, s)
    | tracePc :: rest =>
      if s.isMarkedTraceHead tracePc then decodeOuterLoop arch s rest acc fuel
      else
        let s1 := s.markAsTraceHead tracePc
        let (cv, s2) := s1.computeCodeVersion tracePc
        let trace0 : DecodedTrace :=
          { pc := tracePc, codeVersion := cv, id := ⟨0, 0⟩, instructions := [] }
        let (trace, traceList2, s3) := decodeIntraLoop arch s2 trace0 [tracePc] rest fuel
        let trace2 := { trace with id := hashTraceInstructions trace }
        decodeOuterLoop arch s3 traceList2 (acc ++ [trace2]) fuel

/-- DecodeTraces from Decoder.cpp, with explicit fuel standing in for
the termination argument of the worklist algorithm. -/
def decodeTraces (arch : ArchModel) (s : AddressSpace) (startPc fuel : Nat) :
    List DecodedTrace × AddressSpace :=
  decodeOuterLoop arch s [startPc] [] fuel

/-- The five splitting rules of the spec, with the guards read as the
spec words them (claim-side definition, for comparison against the
RemoveRange code): no overlap, full containment of the map, full
containment of the removed region, prefix overlap at the map's base,
and suffix overlap, the removed region covering the tail of the map.
None when no rule applies. -/
def removeRangeSpecRules (r : MappedRange) (base limit : Nat) :
    Option (List MappedRange) :=
  if r.limit ≤ base ∨ r.base ≥ limit then some [r]
  else if base ≤ r.base ∧ r.limit ≤ limit then some []
  else if r.base < base ∧ limit < r.limit then some [r.copy r.base base, r.copy limit r.limit]
  else if r.base = base then some [r.copy limit r.limit]
  else if r.base < base then some [r.copy r.base base]
  else none

/-- The byte visible at a guest address through the range that
FindRange resolves the address to. -/
def byteAt (s : AddressSpace) (x : Nat) : Nat :=
  (s.getR (s.findRangeId x)).mem x

/-- A page on which every byte write of the TryWrite loop must
succeed: writable, and indexed to a valid range containing the whole
page. -/
def goodWritePage (s : AddressSpace) (q : Nat) : Bool :=
  s.canWriteAligned q &&
    match s.ptm q with
    | none => false
    | some id =>
      (s.getR id).isValid && decide ((s.getR id).base ≤ q) &&
        decide (q + kPageSize ≤ (s.getR id).limit)

/-- Soundness of the page_to_map index: every hit names a valid range
in the maps vector whose span contains the page.  Holds of every state
the public operations produce, since they all end in the index
rebuild. -/
def PtmSound (s : AddressSpace) : Prop :=
  ∀ p id, s.ptm p = some id →
    id ∈ s.maps ∧ (s.getR id).isValid = true ∧
      (s.getR id).base ≤ p ∧ p < (s.getR id).limit

/-- The geometric well-formedness of the maps vector after a rebuild:
sorted by base, pairwise disjoint, nonempty, page-aligned bounds (the
limit may instead reach into the top page, as the sentinel's does),
and bounded by the 64-bit word. -/
def GoodMaps (s : AddressSpace) : Prop :=
  s.maps.Pairwise (fun i j => (s.getR i).base ≤ (s.getR j).base) ∧
  s.maps.Pairwise (fun i j =>
    (s.getR i).limit ≤ (s.getR j).base ∨ (s.getR j).limit ≤ (s.getR i).base) ∧
  (∀ id ∈ s.maps, (s.getR id).base < (s.getR id).limit) ∧
  (∀ id ∈ s.maps, (s.getR id).base % kPageSize = 0 ∧
    ((s.getR id).limit % kPageSize = 0 ∨ WORD - kPageSize ≤ (s.getR id).limit)) ∧
  (∀ id ∈ s.maps, (s.getR id).limit < WORD)

/-- Membership of an address in some valid range of the maps
vector (the address is taken to its page first, as all the page
machinery does). -/
def inValidRange (s : AddressSpace) (a : Nat) : Prop :=
  ∃ id ∈ s.maps, (s.getR id).isValid = true ∧
    (s.getR id).base ≤ alignDownToPage a ∧ alignDownToPage a < (s.getR id).limit

/-- Whether the page of an address carries any of the three
permissions. -/
def anyPerm (s : AddressSpace) (a : Nat) : Bool :=
  s.pageIsReadable (alignDownToPage a) || s.pageIsWritable (alignDownToPage a) ||
    s.pageIsExecutable (alignDownToPage a)

/-- The operations of the address-space public interface, as steps of
a transition system for the temporal SMC claim. -/
inductive Op
  | write (addr : Nat) (bytes : List Nat)
  | computeCV (pc : Nat)
  | markHead (pc : Nat)
  | setPerm (base size : Nat) (r w x : Bool)
  | mapAdd (base size : Nat)
  | mapRemove (base size : Nat)

/-- One transition. -/
def stepOp (s : AddressSpace) : Op → AddressSpace
  | .write a bs => (AddressSpace.tryWrite s a bs).2
  | .computeCV pc => (AddressSpace.computeCodeVersion s pc).2
  | .markHead pc => AddressSpace.markAsTraceHead s pc
  | .setPerm b sz r w x => AddressSpace.setPermissions s b sz r w x
  | .mapAdd b sz => AddressSpace.addMap s b sz
  | .mapRemove b sz => AddressSpace.removeMap s b sz

/-- Run of a list of operations. -/
def runOps : AddressSpace → List Op → AddressSpace
  | s, [] => s
  | s, op :: rest => runOps (stepOp s op) rest

/-- The code-version tokens handed out by ComputeCodeVersion calls
along a run. -/
def observedTokens : AddressSpace → List Op → List Nat
  | _, [] => []
  | s, op :: rest =>
    (match op with
      | Op.computeCV pc => [(AddressSpace.computeCodeVersion s pc).1]
      | _ => []) ++ observedTokens (stepOp s op) rest

/-- Operations that leave the map structure and the permission sets
alone (reads, writes, version queries, trace-head marking): the scope
in which a page keeps denoting the same range. -/
def Op.nonStructural : Op → Prop
  | .write _ _ => True
  | .computeCV _ => True
  | .markHead _ => True
  | _ => False

/-- The cached code version of a range is below a bound. -/
def cvLt (r : MappedRange) (n : Nat) : Prop :=
  ∀ t, r.cv = some t → t < n

/-- Every cached token in the store is below the fresh-token counter:
the invariant making freshly issued tokens distinct from every token
ever handed out. -/
def CntInv (s : AddressSpace) : Prop :=
  ∀ k r, (k, r) ∈ s.store → cvLt r s.cnt

/-- Soundness of the wnx index with respect to the execute permission:
an executable page is never in wnx_page_to_map.  Holds after every
rebuild by construction of mkWnx. -/
def WnxNoExec (s : AddressSpace) : Prop :=
  ∀ p, s.pageIsExecutable p = true → s.wnx p = none

/-- The invalid sentinel dereferences to a tombstone and its id stays
below the allocation counter. -/
def SentinelInv (s : AddressSpace) : Prop :=
  (s.getR s.invalidId).isValid = false ∧ s.invalidId < s.nextId

/-- The empty 64-bit address space (FLAGS_version_code off, as by
default). -/
def emptySpace : AddressSpace := AddressSpace.init mask64 false

/-- S1 state: a single anonymous R+W page at 0x1000. -/
def onePageSpace : AddressSpace := AddressSpace.addMap emptySpace 0x1000 0x1000

/-- The S1 state after Kill. -/
def killedSpace : AddressSpace := AddressSpace.kill onePageSpace

/-- The S1 state with all permissions stripped from its page again. -/
def permStrippedSpace : AddressSpace :=
  AddressSpace.setPermissions onePageSpace 0x1000 0x1000 false false false

/-- S4 state: valid ranges [0x1000, 0x2000) and [0x5000, 0x6000). -/
def holeSpace : AddressSpace :=
  AddressSpace.addMap (AddressSpace.addMap emptySpace 0x1000 0x1000) 0x5000 0x1000

/-- A state with two adjacent tombstones at [0x2000, 0x3000) and
[0x3000, mask): map twice, then remove the upper map. -/
def adjacentTombSpace : AddressSpace :=
  AddressSpace.removeMap
    (AddressSpace.addMap (AddressSpace.addMap emptySpace 0x1000 0x1000) 0x2000 0x1000)
    0x2000 0x1000

/-- The state inserting [0x1000, 0x3000) over an existing map
[0x2000, 0x4000): the straddle-the-upper-boundary overlap. -/
def straddleSpace : AddressSpace :=
  AddressSpace.addMap (AddressSpace.addMap emptySpace 0x2000 0x2000) 0x1000 0x2000

/-- A 64-bit address space with code versioning on
(FLAGS_version_code set). -/
def c1s0 : AddressSpace := AddressSpace.init mask64 true

/-- A history for the SMC scenario: map an R+W page at 0x1000, make it
executable too, and observe its code version once. -/
def c1ops1 : List Op :=
  [Op.mapAdd 0x1000 0x1000, Op.setPerm 0x1000 0x1000 true true true, Op.computeCV 0x1000]

/-- Non-structural activity between the write and the re-observation:
a version query on an unrelated page. -/
def c1ops2 : List Op := [Op.computeCV 0x2000]

/-- Instruction constructor shorthand for the concrete scenarios. -/
def mkInst (c : InstrCategory) (bs : List Nat) (n t nt : Nat) : Instruction :=
  { category := c, bytes := bs, nextPc := n, branchTakenPc := t, branchNotTakenPc := nt }

/-- S6 state: R+X code pages at 0x4000 and 0x8000. -/
def callSpace : AddressSpace :=
  AddressSpace.setPermissions
    (AddressSpace.addMap
      (AddressSpace.setPermissions (AddressSpace.addMap emptySpace 0x4000 0x1000)
        0x4000 0x1000 true false true)
      0x8000 0x1000)
    0x8000 0x1000 true false true

/-- S6 architecture: one-byte instructions; a direct call at 0x4000 to
0x8000 returning to 0x4010, and returns at 0x4010 and 0x8000. -/
def callArch : ArchModel :=
  { maxInstSize := 1
    decode := fun pc bs =>
      if pc = 0x4000 then (true, mkInst .directFunctionCall bs 0x4010 0x8000 0x4010)
      else if pc = 0x4010 then (true, mkInst .functionReturn bs 0x4011 0 0)
      else if pc = 0x8000 then (true, mkInst .functionReturn bs 0x8001 0 0)
      else (false, mkInst .invalid bs 0 0 0) }

/-- A direct call instruction for the concrete successor checks. -/
def wCallInst : Instruction := mkInst .directFunctionCall [0xE8] 0x4005 0x8000 0x4010

/-- A return instruction for the concrete successor checks. -/
def wRetInst : Instruction := mkInst .functionReturn [0xC3] 0 0 0

/-- A one-instruction trace for the TraceId checks. -/
def wTraceA : DecodedTrace :=
  { pc := 0x4000, codeVersion := 0, id := ⟨0, 0⟩
    instructions := [(0x4000, mkInst .normal [0x90] 0x4001 0 0)] }

/-- The same PCs and bytes as wTraceA with different successor fields
and metadata. -/
def wTraceB : DecodedTrace :=
  { pc := 0x4000, codeVersion := 7, id := ⟨1, 1⟩
    instructions := [(0x4000, mkInst .directJump [0x90] 0 0x4001 0)] }

/-- The same bytes as wTraceA at a different PC. -/
def wTraceC : DecodedTrace :=
  { pc := 0x5000, codeVersion := 0, id := ⟨0, 0⟩
    instructions := [(0x5000, mkInst .normal [0x90] 0x5001 0 0)] }

/-- A raw pre-rebuild state with one valid R+W range at
[0x1000, 0x2000) next to the sentinel, for the C8 witness. -/
def c8wPre : AddressSpace :=
  { store := [(0, MappedRange.createInvalid 0 mask64), (1, MappedRange.create 0x1000 0x2000)]
    nextId := 2
    maps := [0, 1]
    invalidId := 0
    pageIsReadable := fun p => decide (p = 0x1000)
    pageIsWritable := fun p => decide (p = 0x1000)
    pageIsExecutable := fun _ => false
    ptm := fun _ => none
    wnx := fun _ => none
    traceHeads := []
    addrMask := mask64
    versionCode := false
    cnt := 1
    isDead := false }

/-! Helper lemmas about page arithmetic. -/

theorem alignDown_le_self (a : Nat) : alignDownToPage a ≤ a :=
  Nat.div_mul_le_self a kPageSize

theorem lt_alignDown_add_page (a : Nat) : a < alignDownToPage a + kPageSize := by
  unfold alignDownToPage kPageSize
  have h1 := Nat.div_add_mod a 4096
  have h2 : a % 4096 < 4096 := Nat.mod_lt _ (by norm_num)
  omega

theorem alignDown_mod (a : Nat) : alignDownToPage a % kPageSize = 0 := by
  unfold alignDownToPage
  exact Nat.mul_mod_left _ _

theorem alignDown_mono {a b : Nat} (h : a ≤ b) : alignDownToPage a ≤ alignDownToPage b :=
  Nat.mul_le_mul_right _ (Nat.div_le_div_right h)

theorem alignDown_of_aligned {a : Nat} (h : a % kPageSize = 0) : alignDownToPage a = a := by
  unfold alignDownToPage
  unfold kPageSize at h ⊢
  omega

theorem alignDown_eq_of_in_page {p a : Nat} (hp : p % kPageSize = 0) (h1 : p ≤ a)
    (h2 : a < p + kPageSize) : alignDownToPage a = p := by
  unfold alignDownToPage
  unfold kPageSize at hp h2 ⊢
  have h3 := Nat.div_add_mod a 4096
  have h4 : a % 4096 < 4096 := Nat.mod_lt _ (by norm_num)
  have h5 := Nat.div_add_mod p 4096
  omega

/-- A loop of TryRead that has already passed its end address reads
nothing. -/
theorem tryReadLoop_past_end (s : AddressSpace) (p a e : Nat) (acc : List Nat) (f : Nat)
    (h : ¬p < e) : AddressSpace.tryReadLoop s p a e acc f = (true, acc) := by
  cases f with
  | zero => rfl
  | succ n =>
    unfold AddressSpace.tryReadLoop
    rw [if_neg h]

/-- C10: for every address space, dead or alive, and every address,
TryRead with size zero returns true and streams no bytes out,
regardless of whether the address is mapped or readable. -/
theorem tryRead_size_zero (s : AddressSpace) (addr : Nat) :
    AddressSpace.tryRead s addr 0 = (true, []) := by
  have hmle : (s.maskAddr addr + 0) % WORD ≤ s.maskAddr addr := by
    rw [Nat.add_zero]; exact Nat.mod_le _ _
  have hlt := lt_alignDown_add_page (s.maskAddr addr)
  unfold AddressSpace.tryRead
  by_cases hc : alignDownToPage (s.maskAddr addr) < (s.maskAddr addr + 0) % WORD
  · have hsub : min ((s.maskAddr addr + 0) % WORD)
        (alignDownToPage (s.maskAddr addr) + kPageSize) - s.maskAddr addr = 0 := by
      have : min ((s.maskAddr addr + 0) % WORD)
          (alignDownToPage (s.maskAddr addr) + kPageSize) ≤ s.maskAddr addr :=
        le_trans (min_le_left _ _) hmle
      omega
    unfold AddressSpace.tryReadLoop
    rw [if_pos hc]
    simp only [AddressSpace.mrReadSeq, hsub, AddressSpace.mrReadN, if_pos]
    exact tryReadLoop_past_end _ _ _ _ _ _ (by omega)
  · rw [tryReadLoop_past_end _ _ _ _ _ _ hc]

/-- C6 counterexample: on the S1 address space the 4-byte write at
0x1FFE does not succeed, because its bytes reach the unmapped page at
0x2000. -/
theorem c6_counterexample :
    (AddressSpace.tryWriteScalar onePageSpace 0x1FFE 4 0xDEADBEEF).1 = false := by
  rfl

/-- C6 (amended): on the S1 space a 4-byte write that stays inside the
page (at 0x1FFC) succeeds and reads back, while the 4-byte write at
0x1FFE and the 2-byte write at 0x1FFF span the page boundary into the
unmapped 0x2000 and fail. -/
theorem c6_amended :
    (AddressSpace.tryWriteScalar onePageSpace 0x1FFC 4 0xDEADBEEF).1 = true ∧
    AddressSpace.tryReadScalar
      (AddressSpace.tryWriteScalar onePageSpace 0x1FFC 4 0xDEADBEEF).2 0x1FFC 4 =
      (true, 0xDEADBEEF) ∧
    (AddressSpace.tryWriteScalar onePageSpace 0x1FFE 4 0xDEADBEEF).1 = false ∧
    (AddressSpace.tryWriteScalar onePageSpace 0x1FFF 2 0xABCD).1 = false ∧
    AddressSpace.isMapped onePageSpace 0x2000 = false :=
  ⟨rfl, rfl, rfl, rfl, rfl⟩

/-- C3: inserting [0x1000, 0x3000) over the existing map
[0x2000, 0x4000) drives RemoveRange into its final else branch, which
keeps the copy from 0x2000 to 0x1000: an inverted, empty range.  No
rule of the spec's five-case split covers this overlap shape (the
removed region covers the head of the map but starts strictly below
its base), as the second conjunct shows. -/
theorem c3_straddle_inverted :
    (straddleSpace.maps.map fun id =>
      ((straddleSpace.getR id).base, (straddleSpace.getR id).limit,
        (straddleSpace.getR id).isValid)) =
      [(0, 0x1000, false), (0x1000, 0x3000, true), (0x2000, 0x1000, true),
        (0x4000, mask64, false)] ∧
    removeRangeSpecRules (MappedRange.create 0x2000 0x4000) 0x1000 0x3000 = none :=
  ⟨rfl, rfl⟩

/-- C7: after Kill the space stays observable and dead, reads fail,
the byte path of TryWrite fails, and AddMap and RemoveMap are silently
rejected without change; but the one-byte TryWrite through the stale
wnx_page_to_map index, which Kill does not clear, still succeeds on a
formerly writable non-executable page, contradicting the claim that
every write fails. -/
theorem c7_dead_space :
    killedSpace.isDead = true ∧
    (AddressSpace.tryWriteByte killedSpace 0x1000 0x42).1 = true ∧
    AddressSpace.tryReadByte killedSpace 0x1000 = none ∧
    (AddressSpace.tryReadScalar killedSpace 0x1000 4).1 = false ∧
    (AddressSpace.tryWrite killedSpace 0x1500 [1, 2]).1 = false ∧
    (AddressSpace.tryWriteScalar killedSpace 0x1004 4 0x11223344).1 = true ∧
    AddressSpace.addMap killedSpace 0x3000 0x1000 = killedSpace ∧
    AddressSpace.removeMap killedSpace 0x1000 0x1000 = killedSpace :=
  ⟨rfl, rfl, rfl, rfl, rfl, rfl, rfl, rfl⟩

/-- C8 counterexample: stripping all permissions from the mapped page
of the S1 space leaves 0x1000 inside a valid range of the maps vector
while IsMapped reports it unmapped, so the union of the valid ranges
is not the IsMapped set. -/
theorem c8_counterexample :
    AddressSpace.isMapped permStrippedSpace 0x1000 = false ∧
    (permStrippedSpace.maps.any fun id =>
      (permStrippedSpace.getR id).isValid &&
        decide ((permStrippedSpace.getR id).base ≤ 0x1000) &&
        decide ((0x1000 : Nat) < (permStrippedSpace.getR id).limit)) = true :=
  ⟨rfl, rfl⟩

/-- The byte stream a trace hash digests is the concatenation of the
per-instruction byte lists in map order. -/
theorem foldl_append_bytes (l : List (Nat × Instruction)) (acc : List Nat) :
    l.foldl (fun acc2 kv => acc2 ++ kv.2.bytes) acc =
      acc ++ (l.map fun kv => kv.2.bytes).flatten := by
  induction l generalizing acc with
  | nil => simp
  | cons kv rest ih => simp [ih]

/-- C4: a TraceId is the pair of the entry PC and the content digest
seeded with min_pc * max_pc * instruction_count over the instruction
bytes in PC order; two traces with identical byte sequences at
identical PCs hash to equal TraceIds, and identical bytes at different
entry PCs yield TraceIds differing in the entry-pc component. -/
theorem c4_traceId :
    (∀ tr1 tr2 : DecodedTrace,
      tr1.pc = tr2.pc →
      (tr1.instructions.map fun kv => (kv.1, kv.2.bytes)) =
        (tr2.instructions.map fun kv => (kv.1, kv.2.bytes)) →
      hashTraceInstructions tr1 = hashTraceInstructions tr2) ∧
    (∀ tr1 tr2 : DecodedTrace,
      tr1.pc ≠ tr2.pc →
      (hashTraceInstructions tr1).hash1 ≠ (hashTraceInstructions tr2).hash1) := by
  constructor
  · intro t1 t2 hpc hbytes
    have hkeys : (t1.instructions.map fun kv => kv.1) =
        t2.instructions.map fun kv => kv.1 := by
      have h := congrArg (List.map Prod.fst) hbytes
      simpa [List.map_map, Function.comp] using h
    have hlen : t1.instructions.length = t2.instructions.length := by
      have h := congrArg List.length hbytes
      simpa using h
    have hbs : (t1.instructions.map fun kv => kv.2.bytes) =
        t2.instructions.map fun kv => kv.2.bytes := by
      have h := congrArg (List.map Prod.snd) hbytes
      simpa [List.map_map, Function.comp] using h
    have hhead : (t1.instructions.head?.map fun kv => kv.1) =
        t2.instructions.head?.map fun kv => kv.1 := by
      rw [← List.head?_map, ← List.head?_map, hkeys]
    have hlast : (t1.instructions.getLast?.map fun kv => kv.1) =
        t2.instructions.getLast?.map fun kv => kv.1 := by
      rw [← List.getLast?_map, ← List.getLast?_map, hkeys]
    unfold hashTraceInstructions
    have e1 : ∀ tr : DecodedTrace,
        (match tr.instructions.head? with | some kv => kv.1 | none => 1) =
          (tr.instructions.head?.map fun kv => kv.1).getD 1 := by
      intro tr
      cases tr.instructions.head? <;> rfl
    have e2 : ∀ tr : DecodedTrace,
        (match tr.instructions.getLast? with | some kv => kv.1 | none => 1) =
          (tr.instructions.getLast?.map fun kv => kv.1).getD 1 := by
      intro tr
      cases tr.instructions.getLast? <;> rfl
    simp only [e1, e2, hhead, hlast, hlen, hpc]
    rw [foldl_append_bytes, foldl_append_bytes, hbs]
  · intro t1 t2 h
    simpa [hashTraceInstructions] using h

/-- C4 witness: identical bytes at identical PCs (with different
successor metadata) give equal TraceIds, and the same bytes at a
different entry PC differ in hash1. -/
theorem c4_traceId_witness :
    hashTraceInstructions wTraceA = hashTraceInstructions wTraceB ∧
    (hashTraceInstructions wTraceA).hash1 ≠ (hashTraceInstructions wTraceC).hash1 :=
  ⟨c4_traceId.1 wTraceA wTraceB rfl rfl, c4_traceId.2 wTraceA wTraceC (by decide)⟩

/-- C5: a direct call enqueues its return site into the intra-trace
work list and its callee into the inter-trace list exactly when callee
and return site differ; indirect jumps, returns, async hypercalls,
errors and invalid instructions enqueue nothing; and decoding the S6
program at 0x4000 emits exactly the traces with entry PCs 0x4000 and
0x8000. -/
theorem c5_successors :
    (∀ (i : Instruction) (wl tl : List Nat), i.category = .directFunctionCall →
      addSuccessorsToWorkList i wl = setInsert i.branchNotTakenPc wl ∧
      addSuccessorsToTraceList i tl =
        if i.branchTakenPc ≠ i.branchNotTakenPc then setInsert i.branchTakenPc tl else tl) ∧
    (∀ (i : Instruction) (wl tl : List Nat),
      i.category = .indirectJump ∨ i.category = .functionReturn ∨
        i.category = .asyncHyperCall ∨ i.category = .error ∨ i.category = .invalid →
      addSuccessorsToWorkList i wl = wl ∧ addSuccessorsToTraceList i tl = tl) ∧
    ((decodeTraces callArch callSpace 0x4000 10).1.map fun t => t.pc) = [0x4000, 0x8000] := by
  refine ⟨?_, ?_, rfl⟩
  · intro i wl tl h
    exact ⟨by simp [addSuccessorsToWorkList, h], by simp [addSuccessorsToTraceList, h]⟩
  · intro i wl tl h
    rcases h with h | h | h | h | h <;>
      exact ⟨by simp [addSuccessorsToWorkList, h], by simp [addSuccessorsToTraceList, h]⟩

/-- C5 witness: the successor rules applied to a concrete direct call
and a concrete return. -/
theorem c5_successors_witness :
    addSuccessorsToWorkList wCallInst [] = [0x4010] ∧
    addSuccessorsToTraceList wCallInst [] = [0x8000] ∧
    addSuccessorsToWorkList wRetInst [7] = [7] :=
  ⟨((c5_successors.1 wCallInst [] [] rfl).1).trans (by rfl),
   ((c5_successors.1 wCallInst [] [] rfl).2).trans (by rfl),
   (c5_successors.2.1 wRetInst [7] [] (Or.inr (Or.inl rfl))).1⟩

/-- A hit of the last-match fold names a member satisfying the test,
unless it was already the accumulator. -/
theorem foldl_lastSome_mem (store : List (Nat × MappedRange)) (p : Nat) :
    ∀ (ids : List Nat) (acc : Option Nat) (j : Nat),
      ids.foldl (fun acc2 id => if containsValid store p id then some id else acc2) acc =
        some j →
      (j ∈ ids ∧ containsValid store p j = true) ∨ acc = some j := by
  intro ids
  induction ids with
  | nil => exact fun acc j h => Or.inr h
  | cons id rest ih =>
    intro acc j h
    simp only [List.foldl_cons] at h
    rcases ih _ j h with ⟨hm, hc⟩ | hacc
    · exact Or.inl ⟨List.mem_cons_of_mem _ hm, hc⟩
    · by_cases hcv : containsValid store p id = true
      · rw [if_pos hcv] at hacc
        cases hacc
        exact Or.inl ⟨List.mem_cons_self _ _, hcv⟩
      · rw [if_neg hcv] at hacc
        exact Or.inr hacc

/-- A miss of the last-match fold means no member satisfies the test. -/
theorem foldl_lastSome_none (store : List (Nat × MappedRange)) (p : Nat) :
    ∀ (ids : List Nat) (acc : Option Nat),
      ids.foldl (fun acc2 id => if containsValid store p id then some id else acc2) acc =
        none →
      acc = none ∧ ∀ id ∈ ids, containsValid store p id = false := by
  intro ids
  induction ids with
  | nil => exact fun acc h => ⟨h, by simp⟩
  | cons id rest ih =>
    intro acc h
    simp only [List.foldl_cons] at h
    obtain ⟨hacc, hall⟩ := ih _ h
    by_cases hcv : containsValid store p id = true
    · rw [if_pos hcv] at hacc
      exact absurd hacc (by simp)
    · rw [if_neg hcv] at hacc
      refine ⟨hacc, ?_⟩
      intro i hi
      rcases List.mem_cons.mp hi with rfl | hi2
      · simpa using hcv
      · exact hall i hi2

/-- Soundness of lastValidContaining. -/
theorem lastValidContaining_some {store : List (Nat × MappedRange)} {ids : List Nat}
    {p j : Nat} (h : AddressSpace.lastValidContaining store ids p = some j) :
    j ∈ ids ∧ containsValid store p j = true := by
  unfold AddressSpace.lastValidContaining at h
  rcases foldl_lastSome_mem store p ids none j h with hok | hbad
  · exact hok
  · exact absurd hbad (by simp)

/-- Completeness of lastValidContaining: a satisfying member forces a
hit. -/
theorem lastValidContaining_ne_none {store : List (Nat × MappedRange)} {ids : List Nat}
    {p i : Nat} (hm : i ∈ ids) (hc : containsValid store p i = true) :
    AddressSpace.lastValidContaining store ids p ≠ none := by
  intro h
  unfold AddressSpace.lastValidContaining at h
  obtain ⟨-, hall⟩ := foldl_lastSome_none store p ids none h
  rw [hall i hm] at hc
  exact absurd hc (by simp)

/-- The rebuild keeps the store. -/
theorem createPageToRangeMap_store (s : AddressSpace) :
    (AddressSpace.createPageToRangeMap s).store = s.store := rfl

/-- Dereferencing is unchanged by the rebuild. -/
theorem createPageToRangeMap_getR (s : AddressSpace) (id : Nat) :
    (AddressSpace.createPageToRangeMap s).getR id = s.getR id := rfl

/-- A valid dereference means the id is present in the store. -/
theorem getR_isValid_lookup {s : AddressSpace} {id : Nat}
    (h : (s.getR id).isValid = true) :
    lookupStore s.store id = some (s.getR id) := by
  unfold AddressSpace.getR at h ⊢
  cases hlk : lookupStore s.store id with
  | none =>
    rw [hlk] at h
    exact absurd h (by simp [MappedRange.createInvalid])
  | some r => rfl

/-- Every state the rebuild produces has a sound page_to_map index. -/
theorem ptmSound_rebuild (s : AddressSpace) :
    PtmSound (AddressSpace.createPageToRangeMap s) := by
  intro p id h
  have hptm : (AddressSpace.createPageToRangeMap s).ptm p =
      AddressSpace.mkPtm s.store (AddressSpace.sortMaps s s.maps) s.pageIsReadable
        s.pageIsWritable s.pageIsExecutable p := rfl
  rw [hptm] at h
  unfold AddressSpace.mkPtm at h
  cases hl : AddressSpace.lastValidContaining s.store (AddressSpace.sortMaps s s.maps) p with
  | none => simp only [hl] at h; exact Option.noConfusion h
  | some j =>
    simp only [hl] at h
    by_cases hperm :
        (s.pageIsReadable p || s.pageIsWritable p || s.pageIsExecutable p) = true
    · rw [if_pos hperm] at h
      cases h
      obtain ⟨hm, hc⟩ := lastValidContaining_some hl
      unfold containsValid at hc
      cases hlk : lookupStore s.store id with
      | none => rw [hlk] at hc; exact absurd hc (by simp)
      | some r =>
        rw [hlk] at hc
        have hgr : (AddressSpace.createPageToRangeMap s).getR id = r := by
          rw [createPageToRangeMap_getR]
          unfold AddressSpace.getR
          rw [hlk]
          rfl
        refine ⟨hm, ?_, ?_, ?_⟩ <;> rw [hgr] <;> simp only [Bool.and_eq_true,
          decide_eq_true_eq] at hc
        · exact hc.1.1
        · exact hc.1.2
        · exact hc.2
    · rw [if_neg hperm] at h
      exact absurd h (by simp)

/-- C8 (amended): after any index rebuild (every public mutation ends
in one), IsMapped holds exactly of the addresses lying, page-wise, in
a valid range whose page carries at least one permission; in
particular each effective permission set (permission bit present and
page in a valid range) is contained in the mapped set. -/
theorem c8_amended (s : AddressSpace) (a : Nat) :
    (AddressSpace.isMapped (AddressSpace.createPageToRangeMap s) a = true ↔
      (AddressSpace.createPageToRangeMap s).isDead = false ∧
        inValidRange (AddressSpace.createPageToRangeMap s) a ∧
        anyPerm (AddressSpace.createPageToRangeMap s) a = true) ∧
    ((AddressSpace.createPageToRangeMap s).isDead = false →
      inValidRange (AddressSpace.createPageToRangeMap s) a →
      ((AddressSpace.createPageToRangeMap s).pageIsReadable (alignDownToPage a) = true →
        AddressSpace.isMapped (AddressSpace.createPageToRangeMap s) a = true) ∧
      ((AddressSpace.createPageToRangeMap s).pageIsWritable (alignDownToPage a) = true →
        AddressSpace.isMapped (AddressSpace.createPageToRangeMap s) a = true) ∧
      ((AddressSpace.createPageToRangeMap s).pageIsExecutable (alignDownToPage a) = true →
        AddressSpace.isMapped (AddressSpace.createPageToRangeMap s) a = true)) := by
  have hdead : (AddressSpace.createPageToRangeMap s).isDead = s.isDead := rfl
  have hmaps : (AddressSpace.createPageToRangeMap s).maps =
      AddressSpace.sortMaps s s.maps := rfl
  have hptm : ∀ p, (AddressSpace.createPageToRangeMap s).ptm p =
      AddressSpace.mkPtm s.store (AddressSpace.sortMaps s s.maps) s.pageIsReadable
        s.pageIsWritable s.pageIsExecutable p := fun _ => rfl
  have hperm3 : ∀ p, (AddressSpace.createPageToRangeMap s).pageIsReadable p =
      s.pageIsReadable p ∧ (AddressSpace.createPageToRangeMap s).pageIsWritable p =
      s.pageIsWritable p ∧ (AddressSpace.createPageToRangeMap s).pageIsExecutable p =
      s.pageIsExecutable p := fun _ => ⟨rfl, rfl, rfl⟩
  have main : AddressSpace.isMapped (AddressSpace.createPageToRangeMap s) a = true ↔
      (AddressSpace.createPageToRangeMap s).isDead = false ∧
        inValidRange (AddressSpace.createPageToRangeMap s) a ∧
        anyPerm (AddressSpace.createPageToRangeMap s) a = true := by
    constructor
    · intro h
      unfold AddressSpace.isMapped at h
      by_cases hd : (AddressSpace.createPageToRangeMap s).isDead
      · rw [if_pos hd] at h
        exact absurd h (by simp)
      · rw [if_neg hd] at h
        refine ⟨by simpa using hd, ?_⟩
        cases hp : (AddressSpace.createPageToRangeMap s).ptm (alignDownToPage a) with
        | none => rw [hp] at h; exact absurd h (by simp)
        | some id =>
          rw [hp] at h
          have hs := ptmSound_rebuild s (alignDownToPage a) id hp
          refine ⟨⟨id, hmaps ▸ hs.1, hs.2.1, hs.2.2.1, hs.2.2.2⟩, ?_⟩
          rw [hptm] at hp
          unfold AddressSpace.mkPtm at hp
          cases hl : AddressSpace.lastValidContaining s.store
              (AddressSpace.sortMaps s s.maps) (alignDownToPage a) with
          | none => simp only [hl] at hp; exact Option.noConfusion hp
          | some j =>
            simp only [hl] at hp
            by_cases hpm : (s.pageIsReadable (alignDownToPage a) ||
                s.pageIsWritable (alignDownToPage a) ||
                s.pageIsExecutable (alignDownToPage a)) = true
            · unfold anyPerm
              rcases (hperm3 (alignDownToPage a)) with ⟨e1, e2, e3⟩
              rw [e1, e2, e3]
              exact hpm
            · rw [if_neg hpm] at hp
              exact absurd hp (by simp)
    · rintro ⟨hd, ⟨id, hm, hv, hb, hl⟩, hperm⟩
      unfold AddressSpace.isMapped
      rw [if_neg (by simp [hd])]
      have hcv : containsValid s.store (alignDownToPage a) id = true := by
        have hlk := getR_isValid_lookup hv
        rw [createPageToRangeMap_store] at hlk
        unfold containsValid
        simp only [hlk, Bool.and_eq_true, decide_eq_true_eq]
        exact ⟨⟨hv, hb⟩, hl⟩
      have hne := lastValidContaining_ne_none (hmaps ▸ hm) hcv
      cases hlv : AddressSpace.lastValidContaining s.store
          (AddressSpace.sortMaps s s.maps) (alignDownToPage a) with
      | none => exact absurd hlv hne
      | some j =>
        have hp : (AddressSpace.createPageToRangeMap s).ptm (alignDownToPage a) = some j := by
          rw [hptm]
          unfold AddressSpace.mkPtm
          simp only [hlv]
          rw [if_pos ?_]
          · unfold anyPerm at hperm
            rcases (hperm3 (alignDownToPage a)) with ⟨e1, e2, e3⟩
            rw [e1, e2, e3] at hperm
            exact hperm
        rw [hp]
        obtain ⟨-, hcj⟩ := lastValidContaining_some hlv
        unfold containsValid at hcj
        cases hlk : lookupStore s.store j with
        | none => rw [hlk] at hcj; exact absurd hcj (by simp)
        | some r =>
          rw [hlk] at hcj
          simp only [Bool.and_eq_true, decide_eq_true_eq] at hcj
          show (AddressSpace.getR (AddressSpace.createPageToRangeMap s) j).isValid = true
          unfold AddressSpace.getR
          rw [createPageToRangeMap_store, hlk]
          exact hcj.1.1
  refine ⟨main, ?_⟩
  intro hd hin
  rcases (hperm3 (alignDownToPage a)) with ⟨e1, e2, e3⟩
  refine ⟨fun hr => ?_, fun hw => ?_, fun hx => ?_⟩ <;>
    [skip; skip; skip] <;>
    refine main.mpr ⟨hd, hin, ?_⟩ <;> unfold anyPerm <;> rw [e1, e2, e3]
  · rw [e1] at hr; simp [hr]
  · rw [e2] at hw; simp [hw]
  · rw [e3] at hx; simp [hx]

/-- C8 witness: the amended characterisation applied to a rebuilt
state with an R+W page at 0x1000. -/
theorem c8_amended_witness :
    AddressSpace.isMapped (AddressSpace.createPageToRangeMap c8wPre) 0x1000 = true :=
  (c8_amended c8wPre 0x1000).1.mpr
    ⟨rfl, ⟨1, by decide, by decide, by decide, by decide⟩, by decide⟩

/-- Lookup at a different key after an in-place update of the store. -/
theorem lookup_setStore_ne (st : List (Nat × MappedRange)) (id : Nat) (v : MappedRange)
    {j : Nat} (h : j ≠ id) : lookupStore (setStore st id v) j = lookupStore st j := by
  induction st with
  | nil => rfl
  | cons kv rest ih =>
    obtain ⟨k, r⟩ := kv
    by_cases hk : k = id
    · subst hk
      unfold setStore
      rw [if_pos rfl]
      show (if k = j then some v else lookupStore rest j) =
        if k = j then some r else lookupStore rest j
      rw [if_neg (fun hkj => h hkj.symm), if_neg (fun hkj => h hkj.symm)]
    · show lookupStore (if k = id then (k, v) :: rest else (k, r) :: setStore rest id v) j =
        lookupStore ((k, r) :: rest) j
      rw [if_neg hk]
      show (if k = j then some r else lookupStore (setStore rest id v) j) =
        if k = j then some r else lookupStore rest j
      by_cases hj : k = j
      · rw [if_pos hj, if_pos hj]
      · rw [if_neg hj, if_neg hj, ih]

/-- Lookup at the updated key. -/
theorem lookup_setStore_self (st : List (Nat × MappedRange)) (id : Nat) (v : MappedRange) :
    lookupStore (setStore st id v) id = (lookupStore st id).map (fun _ => v) := by
  induction st with
  | nil => rfl
  | cons kv rest ih =>
    obtain ⟨k, r⟩ := kv
    by_cases hk : k = id
    · subst hk
      unfold setStore
      rw [if_pos rfl]
      show (if k = k then some v else lookupStore rest k) =
        ((if k = k then some r else lookupStore rest k)).map (fun _ => v)
      rw [if_pos rfl, if_pos rfl]
      rfl
    · show lookupStore (if k = id then (k, v) :: rest else (k, r) :: setStore rest id v) id =
        (lookupStore ((k, r) :: rest) id).map (fun _ => v)
      rw [if_neg hk]
      show (if k = id then some r else lookupStore (setStore rest id v) id) =
        ((if k = id then some r else lookupStore rest id)).map (fun _ => v)
      rw [if_neg hk, if_neg hk, ih]

/-- Dereference after updating a different id. -/
theorem getR_setR_ne (s : AddressSpace) {id j : Nat} (h : j ≠ id) (v : MappedRange) :
    (s.setR id v).getR j = s.getR j := by
  unfold AddressSpace.getR AddressSpace.setR
  rw [lookup_setStore_ne _ _ _ h]

/-- Dereference after updating a present id. -/
theorem getR_setR_present {s : AddressSpace} {id : Nat} {r : MappedRange}
    (h : lookupStore s.store id = some r) (v : MappedRange) :
    (s.setR id v).getR id = v := by
  unfold AddressSpace.getR AddressSpace.setR
  rw [lookup_setStore_self, h]
  rfl

/-- Updating an absent id is invisible. -/
theorem getR_setR_absent {s : AddressSpace} {id : Nat}
    (h : lookupStore s.store id = none) (v : MappedRange) (j : Nat) :
    (s.setR id v).getR j = s.getR j := by
  by_cases hj : j = id
  · subst hj
    unfold AddressSpace.getR AddressSpace.setR
    rw [lookup_setStore_self, h]
    rfl
  · exact getR_setR_ne s hj v

/-- The inner write loop on an all-writable interval: every byte
lands, geometry and the cached code version survive, and exactly the
interval [a, a + n) of the backing changes to the stream bytes. -/
theorem mrWriteN_ok :
    ∀ (n : Nat) (r : MappedRange) (a : Nat) (bs : List Nat),
      r.isValid = true →
      (∀ x, a ≤ x → x < a + n → r.base ≤ x ∧ x < r.limit) →
      n ≤ bs.length →
      ∃ r2, AddressSpace.mrWriteN r a bs n = (r2, a + n, bs.drop n, true) ∧
        r2.base = r.base ∧ r2.limit = r.limit ∧ r2.isValid = r.isValid ∧ r2.cv = r.cv ∧
        ∀ x, r2.mem x =
          if a ≤ x ∧ x < a + n then bs.getD (x - a) 0 % 256 else r.mem x := by
  intro n
  induction n with
  | zero =>
    intro r a bs hval hbounds hlen
    refine ⟨r, rfl, rfl, rfl, rfl, rfl, ?_⟩
    intro x
    rw [if_neg (by omega)]
  | succ n ih =>
    intro r a bs hval hbounds hlen
    cases bs with
    | nil => simp at hlen
    | cons b rest =>
      have hb := hbounds a (le_refl a) (by omega)
      have hw : r.write a b =
          some { r with mem := fun x => if x = a then b % 256 else r.mem x } := by
        unfold MappedRange.write
        rw [if_pos]
        simp only [hval, Bool.and_eq_true, decide_eq_true_eq, Bool.true_and]
        exact ⟨hb.1, hb.2⟩
      have hstep : AddressSpace.mrWriteN r a (b :: rest) (n + 1) =
          AddressSpace.mrWriteN { r with mem := fun x => if x = a then b % 256 else r.mem x }
            (a + 1) rest n := by
        show (match r.write a b with
          | none => (r, a, b :: rest, false)
          | some r2 => AddressSpace.mrWriteN r2 (a + 1) rest n) =
          AddressSpace.mrWriteN
            { r with mem := fun x => if x = a then b % 256 else r.mem x } (a + 1) rest n
        rw [hw]
      obtain ⟨r2, he, hbase, hlim, hvalid, hcv, hmem⟩ :=
        ih { r with mem := fun x => if x = a then b % 256 else r.mem x } (a + 1) rest
          hval (fun x h1 h2 => hbounds x (by omega) (by omega)) (by simpa using hlen)
      refine ⟨r2, ?_, hbase, hlim, hvalid, hcv, ?_⟩
      · rw [hstep, he]
        have e1 : a + 1 + n = a + (n + 1) := by omega
        rw [e1]
        rfl
      · intro x
        rw [hmem x]
        by_cases h1 : a + 1 ≤ x ∧ x < a + 1 + n
        · rw [if_pos h1, if_pos (by omega)]
          have e2 : x - a = (x - (a + 1)) + 1 := by omega
          rw [e2]
          rfl
        · rw [if_neg h1]
          by_cases h2 : a ≤ x ∧ x < a + (n + 1)
          · have hxa : x = a := by omega
            subst hxa
            rw [if_pos h2]
            simp
          · rw [if_neg h2]
            show (if x = a then b % 256 else r.mem x) = r.mem x
            rw [if_neg (by omega)]

/-- Characterisation of one good page of the TryWrite loop: the page
is indexed to a valid range containing it whole, the current position
lies in the page, and the stream reaches past the page; then the page
step succeeds, advances to the next page boundary, consumes the page's
bytes, and changes nothing but that range's backing bytes on the page,
its code-version cache, and possibly the trace-head set. -/
theorem tryWritePageStep_good (s : AddressSpace) (pageAddr a endAddr : Nat) (bs : List Nat)
    (id0 : Nat)
    (hptm0 : s.ptm pageAddr = some id0)
    (hv0 : (s.getR id0).isValid = true)
    (hb0 : (s.getR id0).base ≤ pageAddr)
    (hl0 : pageAddr + kPageSize ≤ (s.getR id0).limit)
    (hpa : pageAddr ≤ a) (hapage : a < pageAddr + kPageSize)
    (hend : a + bs.length = endAddr)
    (hnext : pageAddr + kPageSize ≤ endAddr) :
    ∃ s2, AddressSpace.tryWritePageStep s pageAddr a endAddr bs =
        (s2, pageAddr + kPageSize, bs.drop (pageAddr + kPageSize - a), true) ∧
      (∀ p, s2.pageIsWritable p = s.pageIsWritable p) ∧
      (∀ p, s2.pageIsExecutable p = s.pageIsExecutable p) ∧
      (∀ p, s2.ptm p = s.ptm p) ∧
      s2.invalidId = s.invalidId ∧ s2.cnt = s.cnt ∧ s2.versionCode = s.versionCode ∧
      ((s.versionCode && s.canExecuteAligned pageAddr) = true →
        s2.traceHeads = [] ∧ (s2.getR id0).cv = none) ∧
      ((s.versionCode && s.canExecuteAligned pageAddr) = false →
        s2.traceHeads = s.traceHeads ∧ (s2.getR id0).cv = (s.getR id0).cv) ∧
      (∀ j, j ≠ id0 → s2.getR j = s.getR j) ∧
      (s2.getR id0).base = (s.getR id0).base ∧
      (s2.getR id0).limit = (s.getR id0).limit ∧
      (s2.getR id0).isValid = (s.getR id0).isValid ∧
      (∀ x, (s2.getR id0).mem x =
        if a ≤ x ∧ x < pageAddr + kPageSize then bs.getD (x - a) 0 % 256
        else (s.getR id0).mem x) := by
  have hid : s.findRangeIdAligned pageAddr = id0 := by
    unfold AddressSpace.findRangeIdAligned
    rw [hptm0]
    rfl
  have hlk : lookupStore s.store id0 = some (s.getR id0) := getR_isValid_lookup hv0
  have hne : min endAddr (pageAddr + kPageSize) = pageAddr + kPageSize :=
    min_eq_right hnext
  have hn : a + (pageAddr + kPageSize - a) = pageAddr + kPageSize := by omega
  by_cases hvc : (s.versionCode && s.canExecuteAligned pageAddr) = true
  · -- SMC branch: invalidate, clear trace heads, then write
    set v := (s.getR id0).invalidateCodeVersion with hv
    set s1 : AddressSpace := { s.setR id0 v with traceHeads := [] } with hs1
    have hs1get : ∀ j, s1.getR j = (s.setR id0 v).getR j := fun _ => rfl
    have hs1id : s1.getR id0 = v := by rw [hs1get]; exact getR_setR_present hlk v
    have hs1ne : ∀ j, j ≠ id0 → s1.getR j = s.getR j := by
      intro j hj
      rw [hs1get]
      exact getR_setR_ne s hj v
    obtain ⟨r2, he, hbase, hlim, hvalid, hcv, hmem⟩ :=
      mrWriteN_ok (pageAddr + kPageSize - a) (s1.getR id0) a bs
        (by rw [hs1id]; exact hv0)
        (by
          intro x h1 h2
          rw [hs1id]
          constructor
          · exact le_trans (le_trans hb0 hpa) h1
          · show x < (s.getR id0).limit
            omega)
        (by omega)
    have hstep : AddressSpace.tryWritePageStep s pageAddr a endAddr bs =
        (s1.setR id0 r2, pageAddr + kPageSize, bs.drop (pageAddr + kPageSize - a), true) := by
      unfold AddressSpace.tryWritePageStep
      rw [hid, if_pos hvc]
      show AddressSpace.tryWritePageRun s1 id0 pageAddr a endAddr bs = _
      unfold AddressSpace.tryWritePageRun AddressSpace.mrWriteSeq
      rw [hne, he, hn]
    have hlk1 : lookupStore s1.store id0 = some v := by
      show lookupStore (setStore s.store id0 v) id0 = some v
      rw [lookup_setStore_self, hlk]
      rfl
    have hs2id : (s1.setR id0 r2).getR id0 = r2 := getR_setR_present hlk1 r2
    refine ⟨s1.setR id0 r2, hstep, fun _ => rfl, fun _ => rfl, fun _ => rfl, rfl, rfl, rfl,
      fun _ => ⟨rfl, ?_⟩, fun hcf => absurd hvc (by rw [hcf]; simp), ?_, ?_, ?_, ?_, ?_⟩
    · rw [hs2id, hcv, hs1id]
      rfl
    · intro j hj
      rw [getR_setR_ne _ hj, hs1ne j hj]
    · rw [hs2id, hbase, hs1id]
      rfl
    · rw [hs2id, hlim, hs1id]
      rfl
    · rw [hs2id, hvalid, hs1id]
      rfl
    · intro x
      rw [hs2id, hmem x, hn]
      have : (s1.getR id0).mem = (s.getR id0).mem := by rw [hs1id]; rfl
      rw [this]
  · -- no SMC bookkeeping: just the writes
    have hvc2 : (s.versionCode && s.canExecuteAligned pageAddr) = false := by
      simpa using hvc
    obtain ⟨r2, he, hbase, hlim, hvalid, hcv, hmem⟩ :=
      mrWriteN_ok (pageAddr + kPageSize - a) (s.getR id0) a bs hv0
        (by
          intro x h1 h2
          exact ⟨le_trans (le_trans hb0 hpa) h1, by omega⟩)
        (by omega)
    have hstep : AddressSpace.tryWritePageStep s pageAddr a endAddr bs =
        (s.setR id0 r2, pageAddr + kPageSize, bs.drop (pageAddr + kPageSize - a), true) := by
      unfold AddressSpace.tryWritePageStep
      rw [hid, if_neg (by rw [hvc2]; simp)]
      show AddressSpace.tryWritePageRun s id0 pageAddr a endAddr bs = _
      unfold AddressSpace.tryWritePageRun AddressSpace.mrWriteSeq
      rw [hne, he, hn]
    have hs2id : (s.setR id0 r2).getR id0 = r2 := getR_setR_present hlk r2
    refine ⟨s.setR id0 r2, hstep, fun _ => rfl, fun _ => rfl, fun _ => rfl, rfl, rfl, rfl,
      fun hct => absurd hct (by rw [hvc2]; simp), fun _ => ⟨rfl, ?_⟩, ?_, ?_, ?_, ?_, ?_⟩
    · rw [hs2id, hcv]
    · intro j hj
      exact getR_setR_ne s hj r2
    · rw [hs2id, hbase]
    · rw [hs2id, hlim]
    · rw [hs2id, hvalid]
    · intro x
      rw [hs2id, hmem x, hn]

/-- The page size as a numeral, for linear arithmetic. -/
theorem kPageSize_eq : kPageSize = 4096 := rfl

/-- Default indexing into a dropped list. -/
theorem getD_drop (l : List Nat) : ∀ (n m : Nat), (l.drop n).getD m 0 = l.getD (n + m) 0 := by
  induction l with
  | nil => intro n m; simp [List.getD]
  | cons hd tl ih =>
    intro n m
    cases n with
    | zero => rw [Nat.zero_add]; rfl
    | succ n =>
      show (tl.drop n).getD m 0 = (hd :: tl).getD (n + 1 + m) 0
      rw [ih n m]
      have e : n + 1 + m = (n + m) + 1 := by omega
      rw [e]
      rfl

/-- goodWritePage is stable under changes that keep the writable set,
the page index, and the geometry of every range. -/
theorem goodWritePage_congr {s s2 : AddressSpace}
    (hperm : ∀ p, s2.pageIsWritable p = s.pageIsWritable p)
    (hptm : ∀ p, s2.ptm p = s.ptm p)
    (hgeom : ∀ j, (s2.getR j).isValid = (s.getR j).isValid ∧
      (s2.getR j).base = (s.getR j).base ∧ (s2.getR j).limit = (s.getR j).limit) :
    ∀ q, goodWritePage s2 q = goodWritePage s q := by
  intro q
  unfold goodWritePage AddressSpace.canWriteAligned
  rw [hperm q, hptm q]
  cases s.ptm q with
  | none => rfl
  | some id =>
    obtain ⟨e1, e2, e3⟩ := hgeom id
    show (s.pageIsWritable q && ((s2.getR id).isValid && decide ((s2.getR id).base ≤ q) &&
      decide (q + kPageSize ≤ (s2.getR id).limit))) =
      (s.pageIsWritable q && ((s.getR id).isValid && decide ((s.getR id).base ≤ q) &&
      decide (q + kPageSize ≤ (s.getR id).limit)))
    rw [e1, e2, e3]

/-- The TryWrite page loop on a span whose pages are good up to a
first unwritable page F inside the span: the loop returns false, the
bytes on the good pages land and stay, and every byte from F on (and
before the start) is untouched. -/
theorem tryWriteLoop_firstBad :
    ∀ (fuel : Nat) (s : AddressSpace) (pageAddr a endAddr F : Nat) (bs : List Nat),
      pageAddr % kPageSize = 0 → F % kPageSize = 0 →
      pageAddr ≤ a → a < pageAddr + kPageSize →
      a + bs.length = endAddr →
      pageAddr ≤ F → F < endAddr →
      (∀ q, q % kPageSize = 0 → pageAddr ≤ q → q < F → goodWritePage s q = true) →
      s.canWriteAligned F = false →
      (F - pageAddr) / kPageSize < fuel →
      (AddressSpace.tryWriteLoop s pageAddr a endAddr bs fuel).1 = false ∧
      (∀ x, a ≤ x → x < F →
        byteAt (AddressSpace.tryWriteLoop s pageAddr a endAddr bs fuel).2 x =
          bs.getD (x - a) 0 % 256) ∧
      (∀ x, x < a ∨ F ≤ x →
        byteAt (AddressSpace.tryWriteLoop s pageAddr a endAddr bs fuel).2 x = byteAt s x) := by
  intro fuel
  induction fuel with
  | zero =>
    intro s pageAddr a endAddr F bs h1 h2 h3 h4 h5 h6 h7 h8 h9 h10
    exact absurd h10 (Nat.not_lt_zero _)
  | succ fuel ih =>
    intro s pageAddr a endAddr F bs hpal hFal hpa hapage hend hpF hFe hgood hbad hfuel
    have hpe : pageAddr < endAddr := by omega
    by_cases hPF : pageAddr = F
    · subst hPF
      have hloop : AddressSpace.tryWriteLoop s pageAddr a endAddr bs (fuel + 1) =
          (false, s) := by
        unfold AddressSpace.tryWriteLoop
        rw [if_pos hpe, if_pos (by rw [hbad]; rfl)]
      rw [hloop]
      exact ⟨rfl, fun x hx1 hx2 => by omega, fun x hx => rfl⟩
    · have hlt : pageAddr < F := by omega
      have hnextF : pageAddr + kPageSize ≤ F := by
        simp only [kPageSize_eq] at hpal hFal ⊢
        omega
      have hgp := hgood pageAddr hpal (le_refl _) hlt
      unfold goodWritePage at hgp
      rw [Bool.and_eq_true] at hgp
      obtain ⟨hcw, hrest⟩ := hgp
      cases hptm0 : s.ptm pageAddr with
      | none => simp [hptm0] at hrest
      | some id0 =>
        simp only [hptm0, Bool.and_eq_true, decide_eq_true_eq] at hrest
        obtain ⟨⟨hv0, hb0⟩, hl0⟩ := hrest
        obtain ⟨s2, hstep, hperm, hexec, hptm2, hinv2, hcnt2, hvc2, hth1, hth2, hgne,
          hgb, hgl, hgv, hgm⟩ :=
          tryWritePageStep_good s pageAddr a endAddr bs id0 hptm0 hv0 hb0 hl0 hpa hapage
            hend (by omega : pageAddr + kPageSize ≤ endAddr)
        have hloop : AddressSpace.tryWriteLoop s pageAddr a endAddr bs (fuel + 1) =
            AddressSpace.tryWriteLoop s2 (pageAddr + kPageSize) (pageAddr + kPageSize)
              endAddr (bs.drop (pageAddr + kPageSize - a)) fuel := by
          conv_lhs => unfold AddressSpace.tryWriteLoop
          rw [if_pos hpe, if_neg (by rw [hcw]; simp), hstep]
          rfl
        have hfr : ∀ x, AddressSpace.findRangeId s2 x = AddressSpace.findRangeId s x := by
          intro x
          unfold AddressSpace.findRangeId AddressSpace.findRangeIdAligned
          rw [hptm2, hinv2]
        have hb2 : ∀ x, a ≤ x → x < pageAddr + kPageSize →
            byteAt s2 x = bs.getD (x - a) 0 % 256 := by
          intro x hx1 hx2
          unfold byteAt
          rw [hfr x]
          have hax : alignDownToPage x = pageAddr :=
            alignDown_eq_of_in_page hpal (by omega) hx2
          have hjx : AddressSpace.findRangeId s x = id0 := by
            unfold AddressSpace.findRangeId AddressSpace.findRangeIdAligned
            rw [hax, hptm0]
            rfl
          rw [hjx, hgm x, if_pos ⟨hx1, hx2⟩]
        have hb3 : ∀ x, x < a ∨ pageAddr + kPageSize ≤ x → byteAt s2 x = byteAt s x := by
          intro x hx
          unfold byteAt
          rw [hfr x]
          by_cases hjx : AddressSpace.findRangeId s x = id0
          · rw [hjx, hgm x, if_neg (by omega)]
          · rw [hgne _ hjx]
        obtain ⟨ih1, ih2, ih3⟩ := ih s2 (pageAddr + kPageSize) (pageAddr + kPageSize)
          endAddr F (bs.drop (pageAddr + kPageSize - a))
          (by simp only [kPageSize_eq] at hpal ⊢; omega)
          hFal (le_refl _) (by simp only [kPageSize_eq]; omega)
          (by rw [List.length_drop]; omega)
          hnextF hFe
          (by
            intro q hq1 hq2 hq3
            rw [goodWritePage_congr hperm hptm2 (fun j => ?_) q]
            · exact hgood q hq1 (by omega) hq3
            · by_cases hj : j = id0
              · subst hj
                exact ⟨hgv, hgb, hgl⟩
              · rw [hgne _ hj]
                exact ⟨rfl, rfl, rfl⟩)
          (by
            have e : s2.canWriteAligned F = s.canWriteAligned F := hperm F
            rw [e]
            exact hbad)
          (by simp only [kPageSize_eq] at hfuel hnextF ⊢; omega)
        rw [hloop]
        refine ⟨ih1, ?_, ?_⟩
        · intro x hx1 hx2
          by_cases hxn : x < pageAddr + kPageSize
          · rw [ih3 x (Or.inl hxn), hb2 x hx1 hxn]
          · have hxn2 : pageAddr + kPageSize ≤ x := by omega
            rw [ih2 x hxn2 hx2, getD_drop]
            have e : pageAddr + kPageSize - a + (x - (pageAddr + kPageSize)) = x - a := by
              omega
            rw [e]
        · intro x hx
          rcases hx with hx | hx
          · rw [ih3 x (Or.inl (by omega)), hb3 x (Or.inl hx)]
          · rw [ih3 x (Or.inr hx), hb3 x (Or.inr (by omega))]

/-- C9: TryWrite(addr, buf, size) is not atomic on failure: it checks
writability and writes one page at a time in ascending order, so when
a later page F of the span is unwritable while all pages before it are
good, the call returns false, yet the bytes on the pages before F have
been written and remain changed, and every byte from F on is left
untouched. -/
theorem c9_partial_write (s : AddressSpace) (addr0 : Nat) (bs : List Nat) (F : Nat)
    (hnw : s.maskAddr addr0 + bs.length < WORD)
    (hFal : F % kPageSize = 0)
    (hF1 : alignDownToPage (s.maskAddr addr0) ≤ F)
    (hF2 : F < s.maskAddr addr0 + bs.length)
    (hgood : ∀ q, q % kPageSize = 0 → alignDownToPage (s.maskAddr addr0) ≤ q → q < F →
      goodWritePage s q = true)
    (hbad : s.canWriteAligned F = false) :
    (AddressSpace.tryWrite s addr0 bs).1 = false ∧
    (∀ x, s.maskAddr addr0 ≤ x → x < F →
      byteAt (AddressSpace.tryWrite s addr0 bs).2 x =
        bs.getD (x - s.maskAddr addr0) 0 % 256) ∧
    (∀ x, x < s.maskAddr addr0 ∨ F ≤ x →
      byteAt (AddressSpace.tryWrite s addr0 bs).2 x = byteAt s x) := by
  have hmod : (s.maskAddr addr0 + bs.length) % WORD = s.maskAddr addr0 + bs.length :=
    Nat.mod_eq_of_lt hnw
  have h1 := alignDown_le_self (s.maskAddr addr0)
  have h2 := lt_alignDown_add_page (s.maskAddr addr0)
  have hcall := tryWriteLoop_firstBad (bs.length / kPageSize + 2) s
    (alignDownToPage (s.maskAddr addr0)) (s.maskAddr addr0)
    ((s.maskAddr addr0 + bs.length) % WORD) F bs
    (alignDown_mod _) hFal h1 h2
    (by rw [hmod]) hF1 (by rw [hmod]; exact hF2) hgood hbad
    (by simp only [kPageSize_eq] at h2 ⊢; omega)
  exact hcall

/-- C9 witness: on the S1 space, writing three bytes at 0x1FFE fails
at the unmapped page 0x2000, but the two bytes on the mapped page have
landed and stay, while 0x2000 itself is untouched. -/
theorem c9_partial_write_witness :
    (AddressSpace.tryWrite onePageSpace 0x1FFE [0xAB, 0xCD, 0xEF]).1 = false ∧
    byteAt (AddressSpace.tryWrite onePageSpace 0x1FFE [0xAB, 0xCD, 0xEF]).2 0x1FFE = 0xAB ∧
    byteAt (AddressSpace.tryWrite onePageSpace 0x1FFE [0xAB, 0xCD, 0xEF]).2 0x1FFF = 0xCD ∧
    byteAt (AddressSpace.tryWrite onePageSpace 0x1FFE [0xAB, 0xCD, 0xEF]).2 0x2000 =
      byteAt onePageSpace 0x2000 := by
  have h := c9_partial_write onePageSpace 0x1FFE [0xAB, 0xCD, 0xEF] 0x2000
    (by decide) (by decide) (by decide) (by decide)
    (by
      intro q hq1 hq2 hq3
      have e : alignDownToPage (AddressSpace.maskAddr onePageSpace 0x1FFE) = 0x1000 := by
        decide
      rw [e] at hq2
      simp only [kPageSize_eq] at hq1
      have hq : q = 0x1000 := by omega
      subst hq
      decide)
    (by decide)
  exact ⟨h.1,
    (h.2.1 0x1FFE (by decide) (by decide)).trans (by decide),
    (h.2.1 0x1FFF (by decide) (by decide)).trans (by decide),
    h.2.2 0x2000 (Or.inr (by decide))⟩

/-- sub64 coincides with truncated subtraction when no underflow can
happen. -/
theorem sub64_eq {a b : Nat} (hba : b ≤ a) (ha : a < WORD) : sub64 a b = a - b := by
  unfold sub64 WORD at *
  omega

/-- The rounded size is page-aligned. -/
theorem roundUp_mod (sz : Nat) : roundUpToPage sz % kPageSize = 0 := by
  unfold roundUpToPage
  exact Nat.mul_mod_left _ _

/-- Rounding up does not shrink, absent 64-bit wrap-around. -/
theorem le_roundUp {sz : Nat} (h : sz + (kPageSize - 1) < WORD) : sz ≤ roundUpToPage sz := by
  unfold roundUpToPage kPageSize WORD at *
  omega

/-- An aligned value below the word bound stays a page short of it. -/
theorem aligned_le_word_sub_page {a : Nat} (hal : a % kPageSize = 0) (ha : a < WORD) :
    a ≤ WORD - kPageSize := by
  unfold kPageSize WORD at *
  omega

/-- A nonempty suffix of the reversed list splits the list around its
head. -/
theorem suffix_split {l : List Nat} {id : Nat} {rest : List Nat}
    (h : (id :: rest) <:+ l.reverse) :
    ∃ B, l = rest.reverse ++ id :: B := by
  obtain ⟨pre, hpre⟩ := h
  refine ⟨pre.reverse, ?_⟩
  have h2 := congrArg List.reverse hpre
  simp only [List.reverse_append, List.reverse_cons, List.reverse_reverse] at h2
  rw [← h2]
  simp

/-- The candidate analysis of one FindHole iteration, with the let
bindings of the source spelled out. -/
theorem findHoleLoop_cons (s : AddressSpace) (minA maxA size id : Nat) (rest : List Nat) :
    AddressSpace.findHoleLoop s minA maxA size (id :: rest) =
      match (if !(s.getR id).isValid then some ((s.getR id).limit, (s.getR id).base)
        else match rest with
          | [] => none
          | idLow :: _ => some ((s.getR id).base, (s.getR idLow).limit)) with
      | none => none
      | some (highBase, lowLimit) =>
        if highBase < minA then none
        else if lowLimit ≥ maxA then AddressSpace.findHoleLoop s minA maxA size rest
        else if sub64 (min maxA highBase) (max minA lowLimit) < size then
          AddressSpace.findHoleLoop s minA maxA size rest
        else some (sub64 (min maxA highBase) size) := rfl

/-- The guard structure of FindHole. -/
theorem findHole_eq (s : AddressSpace) (min0 max0 size0 : Nat) :
    AddressSpace.findHole s min0 max0 size0 =
      if size0 = 0 then none
      else if alignDownToPage min0 ≥ alignDownToPage max0 then none
      else if roundUpToPage size0 > alignDownToPage max0 - alignDownToPage min0 then none
      else AddressSpace.findHoleLoop s (alignDownToPage min0) (alignDownToPage max0)
        (roundUpToPage size0) s.maps.reverse := rfl

/-- The arithmetic of a FindHole candidate hit: the hole starts at or
above the gap bottom and ends exactly at the clamped gap top. -/
theorem findHole_candidate_arith {minA maxA size highBase lowLimit : Nat}
    (hmm : minA < maxA) (hmaxW : maxA < WORD)
    (hnb : ¬highBase < minA) (hns : ¬lowLimit ≥ maxA)
    (hlh : lowLimit ≤ highBase)
    (hav : ¬sub64 (min maxA highBase) (max minA lowLimit) < size) :
    max minA lowLimit ≤ sub64 (min maxA highBase) size ∧
    sub64 (min maxA highBase) size + size = min maxA highBase := by
  have h1 : min maxA highBase < WORD := lt_of_le_of_lt (min_le_left _ _) hmaxW
  have h2 : max minA lowLimit ≤ min maxA highBase := by
    apply max_le
    · exact le_min (le_of_lt hmm) (le_of_not_lt hnb)
    · exact le_min (le_of_not_le hns) hlh
  rw [sub64_eq h2 h1] at hav
  have h4 : size ≤ min maxA highBase := by omega
  rw [sub64_eq h4 h1]
  omega

/-- Soundness of the FindHole walk: a returned hole lies between the
aligned bounds, is page-aligned, and misses every valid range of the
maps vector. -/
theorem findHoleLoop_sound (s : AddressSpace)
    (hsort : s.maps.Pairwise (fun i j => (s.getR i).base ≤ (s.getR j).base))
    (hdisj : s.maps.Pairwise (fun i j =>
      (s.getR i).limit ≤ (s.getR j).base ∨ (s.getR j).limit ≤ (s.getR i).base))
    (hnem : ∀ id ∈ s.maps, (s.getR id).base < (s.getR id).limit)
    (hal : ∀ id ∈ s.maps, (s.getR id).base % kPageSize = 0 ∧
      ((s.getR id).limit % kPageSize = 0 ∨ WORD - kPageSize ≤ (s.getR id).limit))
    (hbnd : ∀ id ∈ s.maps, (s.getR id).limit < WORD)
    (minA maxA size : Nat)
    (hminAal : minA % kPageSize = 0) (hmaxAal : maxA % kPageSize = 0)
    (hmm : minA < maxA) (hmaxW : maxA < WORD)
    (hszal : size % kPageSize = 0) :
    ∀ ids : List Nat, ids <:+ s.maps.reverse →
      ∀ h, AddressSpace.findHoleLoop s minA maxA size ids = some h →
      minA ≤ h ∧ h + size ≤ maxA ∧ h % kPageSize = 0 ∧
      ∀ m ∈ s.maps, (s.getR m).isValid = true →
        (s.getR m).limit ≤ h ∨ h + size ≤ (s.getR m).base := by
  intro ids
  induction ids with
  | nil =>
    intro hsuf h hres
    exact absurd hres (by simp [AddressSpace.findHoleLoop])
  | cons id rest ih =>
    intro hsuf h hres
    have hmemid : id ∈ s.maps := by
      have h1 : id ∈ s.maps.reverse := hsuf.subset (List.mem_cons_self _ _)
      simpa using h1
    have hsufrest : rest <:+ s.maps.reverse := by
      obtain ⟨pre, hpre⟩ := hsuf
      exact ⟨pre ++ [id], by simpa using hpre⟩
    obtain ⟨B, hsplit⟩ := suffix_split hsuf
    rw [findHoleLoop_cons] at hres
    by_cases hvalid : (s.getR id).isValid = true
    · -- valid range: the gap below it, bounded by the lower neighbour
      rw [if_neg (by rw [hvalid]; simp)] at hres
      cases hrest : rest with
      | nil =>
        rw [hrest] at hres
        exact absurd hres (by simp)
      | cons idL rest2 =>
        rw [hrest] at hres
        replace hres :
            (if (s.getR id).base < minA then (none : Option Nat)
             else if (s.getR idL).limit ≥ maxA then
               AddressSpace.findHoleLoop s minA maxA size rest
             else if sub64 (min maxA (s.getR id).base)
                 (max minA ((s.getR idL).limit)) < size then
               AddressSpace.findHoleLoop s minA maxA size rest
             else some (sub64 (min maxA (s.getR id).base) size)) = some h := by
          rw [hrest]
          exact hres
        have hmemidL : idL ∈ s.maps := by
          have h1 : idL ∈ s.maps.reverse := hsuf.subset (by rw [hrest]; simp)
          simpa using h1
        by_cases hb1 : (s.getR id).base < minA
        · rw [if_pos hb1] at hres
          exact absurd hres (by simp)
        · rw [if_neg hb1] at hres
          by_cases hb2 : (s.getR idL).limit ≥ maxA
          · rw [if_pos hb2] at hres
            exact ih hsufrest h hres
          · rw [if_neg hb2] at hres
            by_cases hb3 : sub64 (min maxA (s.getR id).base)
                (max minA ((s.getR idL).limit)) < size
            · rw [if_pos hb3] at hres
              exact ih hsufrest h hres
            · rw [if_neg hb3] at hres
              have hh : h = sub64 (min maxA (s.getR id).base) size :=
                (Option.some.inj hres).symm
              -- structural facts through the split
              rw [hrest, List.reverse_cons, List.append_assoc] at hsplit
              have hsplit2 : s.maps = rest2.reverse ++ (idL :: id :: B) := by
                simpa using hsplit
              have hsortL := hsplit2 ▸ hsort
              have hdisjL := hsplit2 ▸ hdisj
              obtain ⟨-, hPcS, hcrossS⟩ := List.pairwise_append.mp hsortL
              obtain ⟨hidLS, hPc2S⟩ := List.pairwise_cons.mp hPcS
              obtain ⟨hidS, -⟩ := List.pairwise_cons.mp hPc2S
              obtain ⟨-, hPcD, hcrossD⟩ := List.pairwise_append.mp hdisjL
              obtain ⟨hidLD, hPc2D⟩ := List.pairwise_cons.mp hPcD
              obtain ⟨hidD, -⟩ := List.pairwise_cons.mp hPc2D
              have hneL := hnem idL hmemidL
              have hneH := hnem id hmemid
              have hlh : (s.getR idL).limit ≤ (s.getR id).base := by
                rcases hidLD id (by simp) with hc | hc
                · exact hc
                · have := hidLS id (by simp)
                  omega
              obtain ⟨harith1, harith2⟩ := findHole_candidate_arith hmm hmaxW hb1 hb2 hlh hb3
              rw [← hh] at harith1 harith2
              have halloc : (min maxA (s.getR id).base) % kPageSize = 0 := by
                rcases le_total maxA (s.getR id).base with hle | hle
                · rw [min_eq_left hle]
                  exact hmaxAal
                · rw [min_eq_right hle]
                  exact (hal id hmemid).1
              refine ⟨?_, ?_, ?_, ?_⟩
              · have := le_max_left minA ((s.getR idL).limit)
                omega
              · have := min_le_left maxA ((s.getR id).base)
                omega
              · simp only [kPageSize_eq] at halloc hszal ⊢
                omega
              · intro m hm hmv
                have hmmem : m ∈ s.maps := hm
                rw [hsplit2] at hm
                rcases List.mem_append.mp hm with hmA | hmC
                · -- below the lower neighbour
                  have hs1 := hcrossS m hmA idL (by simp)
                  have hd1 := hcrossD m hmA idL (by simp)
                  have hnm := hnem m hmmem
                  left
                  have hml : (s.getR m).limit ≤ (s.getR idL).base := by
                    rcases hd1 with hc | hc
                    · exact hc
                    · omega
                  have := le_max_right minA ((s.getR idL).limit)
                  omega
                · rcases List.mem_cons.mp hmC with hmL | hmC2
                  · subst hmL
                    left
                    have := le_max_right minA ((s.getR m).limit)
                    omega
                  · rcases List.mem_cons.mp hmC2 with hmI | hmB
                    · subst hmI
                      right
                      have := min_le_right maxA ((s.getR m).base)
                      omega
                    · right
                      have hs1 := hidS m hmB
                      have := min_le_right maxA ((s.getR id).base)
                      omega
    · -- tombstone: the whole invalid span is the candidate gap
      have hvf : (s.getR id).isValid = false := by
        revert hvalid
        cases (s.getR id).isValid <;> simp
      rw [if_pos (by rw [hvf]; rfl)] at hres
      replace hres :
          (if (s.getR id).limit < minA then (none : Option Nat)
           else if (s.getR id).base ≥ maxA then
             AddressSpace.findHoleLoop s minA maxA size rest
           else if sub64 (min maxA (s.getR id).limit)
               (max minA ((s.getR id).base)) < size then
             AddressSpace.findHoleLoop s minA maxA size rest
           else some (sub64 (min maxA (s.getR id).limit) size)) = some h := hres
      by_cases hb1 : (s.getR id).limit < minA
      · rw [if_pos hb1] at hres
        exact absurd hres (by simp)
      · rw [if_neg hb1] at hres
        by_cases hb2 : (s.getR id).base ≥ maxA
        · rw [if_pos hb2] at hres
          exact ih hsufrest h hres
        · rw [if_neg hb2] at hres
          by_cases hb3 : sub64 (min maxA (s.getR id).limit)
              (max minA ((s.getR id).base)) < size
          · rw [if_pos hb3] at hres
            exact ih hsufrest h hres
          · rw [if_neg hb3] at hres
            have hh : h = sub64 (min maxA (s.getR id).limit) size :=
              (Option.some.inj hres).symm
            have hsortL := hsplit ▸ hsort
            have hdisjL := hsplit ▸ hdisj
            obtain ⟨-, hPcS, hcrossS⟩ := List.pairwise_append.mp hsortL
            obtain ⟨hidS, -⟩ := List.pairwise_cons.mp hPcS
            obtain ⟨-, hPcD, hcrossD⟩ := List.pairwise_append.mp hdisjL
            obtain ⟨hidD, -⟩ := List.pairwise_cons.mp hPcD
            have hneH := hnem id hmemid
            obtain ⟨harith1, harith2⟩ := findHole_candidate_arith hmm hmaxW hb1 hb2
              (le_of_lt hneH) hb3
            rw [← hh] at harith1 harith2
            have halloc : (min maxA (s.getR id).limit) % kPageSize = 0 := by
              rcases (hal id hmemid).2 with hc | hc
              · rcases le_total maxA ((s.getR id).limit) with hle | hle
                · rw [min_eq_left hle]
                  exact hmaxAal
                · rw [min_eq_right hle]
                  exact hc
              · rw [min_eq_left (le_trans (aligned_le_word_sub_page hmaxAal hmaxW) hc)]
                exact hmaxAal
            refine ⟨?_, ?_, ?_, ?_⟩
            · have := le_max_left minA ((s.getR id).base)
              omega
            · have := min_le_left maxA ((s.getR id).limit)
              omega
            · simp only [kPageSize_eq] at halloc hszal ⊢
              omega
            · intro m hm hmv
              have hmmem : m ∈ s.maps := hm
              rw [hsplit] at hm
              rcases List.mem_append.mp hm with hmA | hmC
              · have hs1 := hcrossS m hmA id (by simp)
                have hd1 := hcrossD m hmA id (by simp)
                have hnm := hnem m hmmem
                left
                have hml : (s.getR m).limit ≤ (s.getR id).base := by
                  rcases hd1 with hc | hc
                  · exact hc
                  · omega
                have := le_max_right minA ((s.getR id).base)
                omega
              · rcases List.mem_cons.mp hmC with hmI | hmB
                · subst hmI
                  rw [hmv] at hvf
                  exact absurd hvf (by simp)
                · have hs1 := hidS m hmB
                  have hd1 := hidD m hmB
                  have hnm := hnem m hmmem
                  right
                  have hmb : (s.getR id).limit ≤ (s.getR m).base := by
                    rcases hd1 with hc | hc
                    · exact hc
                    · omega
                  have := min_le_right maxA ((s.getR id).limit)
                  omega

/-- C2 counterexample: FindHole aligns min down before searching, so on
the empty space the query FindHole(0x1800, 0x2000, 0x1000) returns the
hole 0x1000, which is below the requested minimum; and because each
iteration only considers the gap offered by a single map, the two-page
hole spanned by the two adjacent tombstones at 0x2000 and 0x3000 is
never seen: FindHole(0, 0x4000, 0x2000) returns none although every
address in [0x2000, 0x4000) is unmapped. -/
theorem c2_counterexample :
    AddressSpace.findHole emptySpace 0x1800 0x2000 0x1000 = some 0x1000 ∧
    0x1000 < 0x1800 ∧
    AddressSpace.findHole adjacentTombSpace 0 0x4000 0x2000 = none ∧
    AddressSpace.isMapped adjacentTombSpace 0x2000 = false ∧
    AddressSpace.isMapped adjacentTombSpace 0x2FFF = false ∧
    AddressSpace.isMapped adjacentTombSpace 0x3000 = false ∧
    AddressSpace.isMapped adjacentTombSpace 0x3FFF = false := by
  refine ⟨by decide, by decide, by decide, by decide, by decide, by decide, by decide⟩

/-- C2 (amended): on a well-formed maps vector with a sound page index,
a hole returned by FindHole(min, max, size) is page-aligned, lies at or
above the page of min (not necessarily at or above min itself), the
requested size fits below max, and no address in [h, h+size) is
mapped; FindHole need not return the highest such address.  On the S4
state with valid ranges [0x1000, 0x2000) and [0x5000, 0x6000), the
query FindHole(0, 0x10000, 0x2000) does return 0xE000. -/
theorem c2_amended (s : AddressSpace) (min0 max0 size0 h : Nat)
    (hgm : GoodMaps s) (hptm : PtmSound s)
    (hmaxW : max0 < WORD) (hszW : size0 + kPageSize < WORD)
    (hres : AddressSpace.findHole s min0 max0 size0 = some h) :
    (alignDownToPage min0 ≤ h ∧ h + size0 ≤ max0 ∧ h % kPageSize = 0 ∧
      ∀ i, h ≤ i → i < h + size0 → AddressSpace.isMapped s i = false) ∧
    AddressSpace.findHole holeSpace 0 0x10000 0x2000 = some 0xE000 := by
  refine ⟨?_, by decide⟩
  rw [findHole_eq] at hres
  by_cases h0 : size0 = 0
  · rw [if_pos h0] at hres
    exact absurd hres (by simp)
  · rw [if_neg h0] at hres
    by_cases h1 : alignDownToPage min0 ≥ alignDownToPage max0
    · rw [if_pos h1] at hres
      exact absurd hres (by simp)
    · rw [if_neg h1] at hres
      by_cases h2 : roundUpToPage size0 > alignDownToPage max0 - alignDownToPage min0
      · rw [if_pos h2] at hres
        exact absurd hres (by simp)
      · rw [if_neg h2] at hres
        obtain ⟨hs1, hs2, hs3, hs4, hs5⟩ := hgm
        have hmaxAW : alignDownToPage max0 < WORD :=
          lt_of_le_of_lt (alignDown_le_self _) hmaxW
        have hsz0le : size0 ≤ roundUpToPage size0 :=
          le_roundUp (by simp only [kPageSize_eq] at hszW ⊢; omega)
        obtain ⟨hc1, hc2, hc3, hc4⟩ := findHoleLoop_sound s hs1 hs2 hs3 hs4 hs5
          (alignDownToPage min0) (alignDownToPage max0) (roundUpToPage size0)
          (alignDown_mod _) (alignDown_mod _) (lt_of_not_ge h1) hmaxAW (roundUp_mod _)
          s.maps.reverse (List.suffix_refl _) h hres
        refine ⟨hc1, ?_, hc3, ?_⟩
        · have := alignDown_le_self max0
          omega
        · intro i hi1 hi2
          unfold AddressSpace.isMapped
          by_cases hd : s.isDead = true
          · rw [if_pos hd]
          · rw [if_neg hd]
            cases hpm : s.ptm (alignDownToPage i) with
            | none => rfl
            | some id =>
              obtain ⟨hmem, hval, hb, hl⟩ := hptm _ _ hpm
              have hpal : h ≤ alignDownToPage i := by
                calc h = alignDownToPage h := (alignDown_of_aligned hc3).symm
                _ ≤ alignDownToPage i := alignDown_mono hi1
              have hple : alignDownToPage i ≤ i := alignDown_le_self i
              exfalso
              rcases hc4 id hmem hval with hcase | hcase <;> omega

/-- A single MappedRange write only changes the backing bytes. -/
theorem write_frame {r r2 : MappedRange} {a v : Nat} (h : r.write a v = some r2) :
    r2.base = r.base ∧ r2.limit = r.limit ∧ r2.isValid = r.isValid ∧ r2.cv = r.cv := by
  unfold MappedRange.write at h
  by_cases hc : (r.isValid && decide (r.base ≤ a) && decide (a < r.limit)) = true
  · rw [if_pos hc] at h
    cases h
    exact ⟨rfl, rfl, rfl, rfl⟩
  · rw [if_neg hc] at h
    exact absurd h (by simp)

/-- The inner write loop never changes the geometry or the cached
code-version token of the range it streams into. -/
theorem mrWriteN_frame :
    ∀ (n : Nat) (r : MappedRange) (a : Nat) (bs : List Nat),
      ((AddressSpace.mrWriteN r a bs n).1).base = r.base ∧
      ((AddressSpace.mrWriteN r a bs n).1).limit = r.limit ∧
      ((AddressSpace.mrWriteN r a bs n).1).isValid = r.isValid ∧
      ((AddressSpace.mrWriteN r a bs n).1).cv = r.cv := by
  intro n
  induction n with
  | zero => intro r a bs; exact ⟨rfl, rfl, rfl, rfl⟩
  | succ n ih =>
    intro r a bs
    cases bs with
    | nil => exact ⟨rfl, rfl, rfl, rfl⟩
    | cons b rest =>
      cases hw : r.write a b with
      | none =>
        have he : AddressSpace.mrWriteN r a (b :: rest) (n + 1) = (r, a, b :: rest, false) := by
          show (match r.write a b with
            | none => (r, a, b :: rest, false)
            | some r2 => AddressSpace.mrWriteN r2 (a + 1) rest n) = _
          rw [hw]
        rw [he]
        exact ⟨rfl, rfl, rfl, rfl⟩
      | some r2 =>
        have he : AddressSpace.mrWriteN r a (b :: rest) (n + 1) =
            AddressSpace.mrWriteN r2 (a + 1) rest n := by
          show (match r.write a b with
            | none => (r, a, b :: rest, false)
            | some r2 => AddressSpace.mrWriteN r2 (a + 1) rest n) = _
          rw [hw]
        obtain ⟨e1, e2, e3, e4⟩ := write_frame hw
        obtain ⟨f1, f2, f3, f4⟩ := ih r2 (a + 1) rest
        rw [he]
        exact ⟨f1.trans e1, f2.trans e2, f3.trans e3, f4.trans e4⟩

/-- A successful store lookup names a store member. -/
theorem lookupStore_mem : ∀ (st : List (Nat × MappedRange)) (id : Nat) (r : MappedRange),
    lookupStore st id = some r → (id, r) ∈ st := by
  intro st
  induction st with
  | nil => intro id r h; exact absurd h (by simp [lookupStore])
  | cons kv rest ih =>
    intro id r h
    obtain ⟨k, v⟩ := kv
    by_cases hk : k = id
    · subst hk
      unfold lookupStore at h
      rw [if_pos rfl] at h
      cases h
      exact List.mem_cons_self _ _
    · unfold lookupStore at h
      rw [if_neg hk] at h
      exact List.mem_cons_of_mem _ (ih id r h)

/-- Members of an updated store are old members or carry the new
value. -/
theorem mem_setStore : ∀ (st : List (Nat × MappedRange)) (id : Nat) (v : MappedRange)
    (k : Nat) (r : MappedRange), (k, r) ∈ setStore st id v → (k, r) ∈ st ∨ r = v := by
  intro st
  induction st with
  | nil => intro id v k r h; exact absurd h (by simp [setStore])
  | cons kv rest ih =>
    intro id v k r h
    obtain ⟨k0, r0⟩ := kv
    unfold setStore at h
    by_cases hk : k0 = id
    · rw [if_pos hk] at h
      rcases List.mem_cons.mp h with he | hm
      · injection he with h1 h2
        exact Or.inr h2
      · exact Or.inl (List.mem_cons_of_mem _ hm)
    · rw [if_neg hk] at h
      rcases List.mem_cons.mp h with he | hm
      · rw [he]
        exact Or.inl (List.mem_cons_self _ _)
      · rcases ih id v k r hm with h1 | h1
        · exact Or.inl (List.mem_cons_of_mem _ h1)
        · exact Or.inr h1

/-- A bound on the cached token survives a counter increase. -/
theorem cvLt_mono {r : MappedRange} {n m : Nat} (h : cvLt r n) (hnm : n ≤ m) : cvLt r m :=
  fun t ht => lt_of_lt_of_le (h t ht) hnm

/-- Under the counter invariant every dereference is token-bounded. -/
theorem cvLt_getR {s : AddressSpace} (h : CntInv s) (id : Nat) : cvLt (s.getR id) s.cnt := by
  unfold AddressSpace.getR
  cases hlk : lookupStore s.store id with
  | none => intro t ht; exact Option.noConfusion ht
  | some r => exact h id r (lookupStore_mem _ _ _ hlk)

/-- The counter invariant after overwriting one object with a
token-bounded value. -/
theorem CntInv_setR {s : AddressSpace} (h : CntInv s) {v : MappedRange}
    (hv : cvLt v s.cnt) (id : Nat) : CntInv (s.setR id v) := by
  intro k r hm
  rcases mem_setStore _ _ _ _ _ hm with h1 | h1
  · exact h k r h1
  · rw [h1]
    exact hv

/-- The counter invariant after interning a token-bounded object. -/
theorem CntInv_intern {s : AddressSpace} (h : CntInv s) {v : MappedRange}
    (hv : cvLt v s.cnt) : CntInv (s.intern v).2 := by
  intro k r hm
  have hm2 : (k, r) ∈ s.store ++ [(s.nextId, v)] := hm
  rcases List.mem_append.mp hm2 with h1 | h1
  · exact h k r h1
  · have he : (k, r) = (s.nextId, v) := by simpa using h1
    injection he with h2 h3
    rw [h3]
    exact hv

/-- C2 amended, witnessed at the S4 state: the hypotheses hold of
holeSpace and the postconditions hold of the returned hole 0xE000. -/
theorem c2_amended_witness :
    alignDownToPage 0 ≤ 0xE000 ∧ 0xE000 + 0x2000 ≤ 0x10000 ∧
    0xE000 % kPageSize = 0 ∧
    ∀ i, 0xE000 ≤ i → i < 0xE000 + 0x2000 →
      AddressSpace.isMapped holeSpace i = false :=
  (c2_amended holeSpace 0 0x10000 0x2000 0xE000
    (by unfold GoodMaps; decide) (ptmSound_rebuild _)
    (by decide) (by decide) (by decide)).1

/-- The successor unfolding of the TryWrite page loop. -/
theorem tryWriteLoop_succ (s : AddressSpace) (pageAddr a endAddr : Nat) (bs : List Nat)
    (fuel : Nat) :
    AddressSpace.tryWriteLoop s pageAddr a endAddr bs (fuel + 1) =
      if pageAddr < endAddr then
        if !s.canWriteAligned pageAddr then (false, s)
        else match AddressSpace.tryWritePageStep s pageAddr a endAddr bs with
          | (s2, a2, rest, ok) =>
            if ok then AddressSpace.tryWriteLoop s2 (pageAddr + kPageSize) a2 endAddr rest fuel
            else (false, s2)
      else (true, s) := rfl

/-- One page step of TryWrite leaves the counter, the configuration,
the page indices and the permission sets alone; a cached code-version
token either survives or is dropped; the counter invariant is
preserved. -/
theorem tryWritePageStep_frame (s : AddressSpace) (pageAddr a endAddr : Nat) (bs : List Nat)
    {s2 : AddressSpace} {a2 : Nat} {rest : List Nat} {ok : Bool}
    (hstep : AddressSpace.tryWritePageStep s pageAddr a endAddr bs = (s2, a2, rest, ok)) :
    s2.cnt = s.cnt ∧ s2.versionCode = s.versionCode ∧ s2.addrMask = s.addrMask ∧
    s2.invalidId = s.invalidId ∧ (∀ p, s2.ptm p = s.ptm p) ∧
    (∀ p, s2.pageIsWritable p = s.pageIsWritable p) ∧
    (∀ j, (s2.getR j).cv = (s.getR j).cv ∨ (s2.getR j).cv = none) ∧
    (CntInv s → CntInv s2) := by
  by_cases hvc : (s.versionCode && s.canExecuteAligned pageAddr) = true
  · set fid := s.findRangeIdAligned pageAddr with hfid
    set v := (s.getR fid).invalidateCodeVersion with hv
    set s1 : AddressSpace := { s.setR fid v with traceHeads := [] } with hs1
    rcases hmw : AddressSpace.mrWriteSeq (s1.getR fid) a (min endAddr (pageAddr + kPageSize)) bs
      with ⟨r2, a2', rest', ok'⟩
    have hrun : AddressSpace.tryWritePageStep s pageAddr a endAddr bs =
        (s1.setR fid r2, a2', rest', ok') := by
      unfold AddressSpace.tryWritePageStep
      rw [if_pos hvc]
      show AddressSpace.tryWritePageRun s1 fid pageAddr a endAddr bs = _
      unfold AddressSpace.tryWritePageRun
      rw [hmw]
    rw [hrun] at hstep
    injection hstep with he1 he2
    injection he2 with he2 he3
    injection he3 with he3 he4
    subst he1
    have hmw2 : AddressSpace.mrWriteN (s1.getR fid) a bs
        (min endAddr (pageAddr + kPageSize) - a) = (r2, a2', rest', ok') := hmw
    have hr2cv : r2.cv = (s1.getR fid).cv := by
      have hf := (mrWriteN_frame (min endAddr (pageAddr + kPageSize) - a)
        (s1.getR fid) a bs).2.2.2
      rw [hmw2] at hf
      exact hf
    have hs1cv : ∀ j, (s1.getR j).cv = (s.getR j).cv ∨ (s1.getR j).cv = none := by
      intro j
      by_cases hj : j = fid
      · subst hj
        cases hlk : lookupStore s.store fid with
        | none =>
          left
          show ((s.setR fid v).getR fid).cv = (s.getR fid).cv
          rw [getR_setR_absent hlk]
        | some r0 =>
          right
          show ((s.setR fid v).getR fid).cv = none
          rw [getR_setR_present hlk]
          rfl
      · left
        show ((s.setR fid v).getR j).cv = (s.getR j).cv
        rw [getR_setR_ne _ hj]
    have hs2cv : ∀ j, ((s1.setR fid r2).getR j).cv = (s1.getR j).cv := by
      intro j
      by_cases hj : j = fid
      · subst hj
        cases hlk1 : lookupStore s1.store fid with
        | none => rw [getR_setR_absent hlk1]
        | some r1 =>
          rw [getR_setR_present hlk1, hr2cv]
      · rw [getR_setR_ne _ hj]
    refine ⟨rfl, rfl, rfl, rfl, fun _ => rfl, fun _ => rfl, ?_, ?_⟩
    · intro j
      rw [hs2cv j]
      exact hs1cv j
    · intro hcnt
      have hv1 : cvLt v s.cnt := fun t ht => Option.noConfusion ht
      have hc1 : CntInv s1 := CntInv_setR hcnt hv1 fid
      have hv2 : cvLt r2 s1.cnt := by
        intro t ht
        rw [hr2cv] at ht
        exact cvLt_getR hc1 fid t ht
      exact CntInv_setR hc1 hv2 fid
  · set fid := s.findRangeIdAligned pageAddr with hfid
    rcases hmw : AddressSpace.mrWriteSeq (s.getR fid) a (min endAddr (pageAddr + kPageSize)) bs
      with ⟨r2, a2', rest', ok'⟩
    have hrun : AddressSpace.tryWritePageStep s pageAddr a endAddr bs =
        (s.setR fid r2, a2', rest', ok') := by
      unfold AddressSpace.tryWritePageStep
      rw [if_neg hvc]
      show AddressSpace.tryWritePageRun s fid pageAddr a endAddr bs = _
      unfold AddressSpace.tryWritePageRun
      rw [hmw]
    rw [hrun] at hstep
    injection hstep with he1 he2
    subst he1
    have hmw2 : AddressSpace.mrWriteN (s.getR fid) a bs
        (min endAddr (pageAddr + kPageSize) - a) = (r2, a2', rest', ok') := hmw
    have hr2cv : r2.cv = (s.getR fid).cv := by
      have hf := (mrWriteN_frame (min endAddr (pageAddr + kPageSize) - a)
        (s.getR fid) a bs).2.2.2
      rw [hmw2] at hf
      exact hf
    refine ⟨rfl, rfl, rfl, rfl, fun _ => rfl, fun _ => rfl, ?_, ?_⟩
    · intro j
      left
      by_cases hj : j = fid
      · subst hj
        cases hlk : lookupStore s.store fid with
        | none => rw [getR_setR_absent hlk]
        | some r0 => rw [getR_setR_present hlk, hr2cv]
      · rw [getR_setR_ne _ hj]
    · intro hcnt
      have hv2 : cvLt r2 s.cnt := by
        intro t ht
        rw [hr2cv] at ht
        exact cvLt_getR hcnt fid t ht
      exact CntInv_setR hcnt hv2 fid

/-- The TryWrite page loop inherits the per-step frame. -/
theorem tryWriteLoop_frame :
    ∀ (fuel : Nat) (s : AddressSpace) (pageAddr a endAddr : Nat) (bs : List Nat),
      (AddressSpace.tryWriteLoop s pageAddr a endAddr bs fuel).2.cnt = s.cnt ∧
      (AddressSpace.tryWriteLoop s pageAddr a endAddr bs fuel).2.versionCode = s.versionCode ∧
      (AddressSpace.tryWriteLoop s pageAddr a endAddr bs fuel).2.addrMask = s.addrMask ∧
      (AddressSpace.tryWriteLoop s pageAddr a endAddr bs fuel).2.invalidId = s.invalidId ∧
      (∀ p, (AddressSpace.tryWriteLoop s pageAddr a endAddr bs fuel).2.ptm p = s.ptm p) ∧
      (∀ j, ((AddressSpace.tryWriteLoop s pageAddr a endAddr bs fuel).2.getR j).cv =
          (s.getR j).cv ∨
        ((AddressSpace.tryWriteLoop s pageAddr a endAddr bs fuel).2.getR j).cv = none) ∧
      (CntInv s → CntInv (AddressSpace.tryWriteLoop s pageAddr a endAddr bs fuel).2) := by
  intro fuel
  induction fuel with
  | zero =>
    intro s pageAddr a endAddr bs
    exact ⟨rfl, rfl, rfl, rfl, fun _ => rfl, fun j => Or.inl rfl, fun h => h⟩
  | succ fuel ih =>
    intro s pageAddr a endAddr bs
    rw [tryWriteLoop_succ]
    by_cases h1 : pageAddr < endAddr
    · rw [if_pos h1]
      by_cases h2 : (!s.canWriteAligned pageAddr) = true
      · rw [if_pos h2]
        exact ⟨rfl, rfl, rfl, rfl, fun _ => rfl, fun j => Or.inl rfl, fun h => h⟩
      · rw [if_neg h2]
        rcases hst : AddressSpace.tryWritePageStep s pageAddr a endAddr bs
          with ⟨s2, a2, rest, ok⟩
        obtain ⟨hf1, hf2, hf3, hf4, hf5, hf6, hf7, hf8⟩ :=
          tryWritePageStep_frame s pageAddr a endAddr bs hst
        cases ok with
        | false =>
          exact ⟨hf1, hf2, hf3, hf4, hf5, hf7, hf8⟩
        | true =>
          obtain ⟨g1, g2, g3, g4, g5, g6, g7⟩ := ih s2 (pageAddr + kPageSize) a2 endAddr rest
          refine ⟨g1.trans hf1, g2.trans hf2, g3.trans hf3, g4.trans hf4,
            fun p => (g5 p).trans (hf5 p), ?_, fun h => g7 (hf8 h)⟩
          intro j
          rcases g6 j with hg | hg
          · rcases hf7 j with hh | hh
            · exact Or.inl (hg.trans hh)
            · exact Or.inr (hg.trans hh)
          · exact Or.inr hg
    · rw [if_neg h1]
      exact ⟨rfl, rfl, rfl, rfl, fun _ => rfl, fun j => Or.inl rfl, fun h => h⟩

/-- TryWrite as a whole inherits the frame: the counter, the
configuration and the page index are untouched, cached tokens only
survive or get dropped, and the counter invariant is preserved. -/
theorem tryWrite_frame (s : AddressSpace) (addr0 : Nat) (bs : List Nat) :
    (AddressSpace.tryWrite s addr0 bs).2.cnt = s.cnt ∧
    (AddressSpace.tryWrite s addr0 bs).2.versionCode = s.versionCode ∧
    (AddressSpace.tryWrite s addr0 bs).2.addrMask = s.addrMask ∧
    (AddressSpace.tryWrite s addr0 bs).2.invalidId = s.invalidId ∧
    (∀ p, (AddressSpace.tryWrite s addr0 bs).2.ptm p = s.ptm p) ∧
    (∀ j, ((AddressSpace.tryWrite s addr0 bs).2.getR j).cv = (s.getR j).cv ∨
      ((AddressSpace.tryWrite s addr0 bs).2.getR j).cv = none) ∧
    (CntInv s → CntInv (AddressSpace.tryWrite s addr0 bs).2) :=
  tryWriteLoop_frame (bs.length / kPageSize + 2) s (alignDownToPage (s.maskAddr addr0))
    (s.maskAddr addr0) ((s.maskAddr addr0 + bs.length) % WORD) bs

/-- The zeta-expanded shape of ComputeCodeVersion. -/
theorem computeCV_eq (s : AddressSpace) (pc : Nat) :
    AddressSpace.computeCodeVersion s pc =
      (if s.versionCode = true then
        match (s.getR (s.findRangeId (s.maskAddr pc))).cv with
        | some t => (t, s)
        | none => (s.cnt,
            { s.setR (s.findRangeId (s.maskAddr pc))
                { s.getR (s.findRangeId (s.maskAddr pc)) with cv := some s.cnt } with
              cnt := s.cnt + 1 })
      else (0, s)) := rfl

/-- ComputeCodeVersion leaves the configuration and the page index
alone, only grows the counter, keeps the counter invariant, hands out
a token below the resulting counter when versioning is on, and caches
at most one fresh token. -/
theorem computeCV_frame (s : AddressSpace) (pc : Nat) :
    (AddressSpace.computeCodeVersion s pc).2.versionCode = s.versionCode ∧
    (AddressSpace.computeCodeVersion s pc).2.addrMask = s.addrMask ∧
    (AddressSpace.computeCodeVersion s pc).2.invalidId = s.invalidId ∧
    (∀ p, (AddressSpace.computeCodeVersion s pc).2.ptm p = s.ptm p) ∧
    s.cnt ≤ (AddressSpace.computeCodeVersion s pc).2.cnt ∧
    (CntInv s → CntInv (AddressSpace.computeCodeVersion s pc).2) ∧
    (s.versionCode = true → CntInv s →
      (AddressSpace.computeCodeVersion s pc).1 <
        (AddressSpace.computeCodeVersion s pc).2.cnt) ∧
    (∀ j, ((AddressSpace.computeCodeVersion s pc).2.getR j).cv = (s.getR j).cv ∨
      ∃ u, ((AddressSpace.computeCodeVersion s pc).2.getR j).cv = some u ∧ s.cnt ≤ u) := by
  by_cases hv : s.versionCode = true
  · cases hcv : (s.getR (s.findRangeId (s.maskAddr pc))).cv with
    | some t =>
      rw [computeCV_eq, if_pos hv, hcv]
      exact ⟨rfl, rfl, rfl, fun _ => rfl, le_refl _, fun h => h,
        fun _ hcnt => cvLt_getR hcnt _ t hcv, fun j => Or.inl rfl⟩
    | none =>
      rw [computeCV_eq, if_pos hv, hcv]
      set id := s.findRangeId (s.maskAddr pc) with hid
      set vcv : MappedRange := { s.getR id with cv := some s.cnt } with hvcv
      refine ⟨rfl, rfl, rfl, fun _ => rfl, Nat.le_succ _, ?_, fun _ _ => Nat.lt_succ_self _, ?_⟩
      · intro hcnt k r hm
        rcases mem_setStore _ _ _ _ _ hm with h1 | h1
        · exact cvLt_mono (hcnt k r h1) (Nat.le_succ _)
        · intro t ht
          rw [h1] at ht
          have : some s.cnt = some t := ht
          injection this with h2
          rw [← h2]
          exact Nat.lt_succ_self _
      · intro j
        by_cases hj : j = id
        · subst hj
          cases hlk : lookupStore s.store id with
          | none =>
            left
            show ((s.setR id vcv).getR id).cv = (s.getR id).cv
            rw [getR_setR_absent hlk]
          | some r0 =>
            right
            refine ⟨s.cnt, ?_, le_refl _⟩
            show ((s.setR id vcv).getR id).cv = some s.cnt
            rw [getR_setR_present hlk]
        · left
          show ((s.setR id vcv).getR j).cv = (s.getR j).cv
          rw [getR_setR_ne _ hj]
  · rw [computeCV_eq, if_neg hv]
    exact ⟨rfl, rfl, rfl, fun _ => rfl, le_refl _, fun h => h,
      fun hvt => absurd hvt hv, fun j => Or.inl rfl⟩

/-- RemoveRange on one map keeps the configuration and the counter and
preserves the counter invariant: the split copies inherit their
parent's cached token, which is already bounded. -/
theorem removeRangeOne_mono (s : AddressSpace) (id base limit : Nat) :
    (AddressSpace.removeRangeOne s id base limit).1.versionCode = s.versionCode ∧
    (AddressSpace.removeRangeOne s id base limit).1.cnt = s.cnt ∧
    (CntInv s → CntInv (AddressSpace.removeRangeOne s id base limit).1) := by
  simp only [AddressSpace.removeRangeOne]
  split_ifs with h1 h2 h3 h4
  · exact ⟨rfl, rfl, fun h => h⟩
  · exact ⟨rfl, rfl, fun h => h⟩
  · refine ⟨rfl, rfl, fun hcnt => ?_⟩
    exact @CntInv_intern _
      (@CntInv_intern _ hcnt ((s.getR id).copy (s.getR id).base base)
        (fun t ht => cvLt_getR hcnt id t ht))
      ((s.getR id).copy limit (s.getR id).limit)
      (fun t ht => cvLt_getR hcnt id t ht)
  · refine ⟨rfl, rfl, fun hcnt => ?_⟩
    exact @CntInv_intern _ hcnt ((s.getR id).copy limit (s.getR id).limit)
      (fun t ht => cvLt_getR hcnt id t ht)
  · refine ⟨rfl, rfl, fun hcnt => ?_⟩
    exact @CntInv_intern _ hcnt ((s.getR id).copy (s.getR id).base base)
      (fun t ht => cvLt_getR hcnt id t ht)

/-- RemoveRange over the maps vector inherits the per-map frame. -/
theorem removeRangeList_mono :
    ∀ (ids : List Nat) (s : AddressSpace) (base limit : Nat),
      (AddressSpace.removeRangeList s base limit ids).1.versionCode = s.versionCode ∧
      (AddressSpace.removeRangeList s base limit ids).1.cnt = s.cnt ∧
      (CntInv s → CntInv (AddressSpace.removeRangeList s base limit ids).1) := by
  intro ids
  induction ids with
  | nil => intro s b l; exact ⟨rfl, rfl, fun h => h⟩
  | cons id rest ih =>
    intro s b l
    have hchar : (AddressSpace.removeRangeList s b l (id :: rest)).1 =
        (AddressSpace.removeRangeList (AddressSpace.removeRangeOne s id b l).1 b l rest).1 :=
      rfl
    rw [hchar]
    obtain ⟨e1, e2, e3⟩ := removeRangeOne_mono s id b l
    obtain ⟨f1, f2, f3⟩ := ih (AddressSpace.removeRangeOne s id b l).1 b l
    exact ⟨f1.trans e1, f2.trans e2, fun h => f3 (e3 h)⟩

/-- CreateMap keeps the configuration and the counter and preserves
the counter invariant (the fresh range starts with no cached token). -/
theorem createMap_mono (s : AddressSpace) (b sz : Nat) :
    (AddressSpace.createMap s b sz).versionCode = s.versionCode ∧
    (AddressSpace.createMap s b sz).cnt = s.cnt ∧
    (CntInv s → CntInv (AddressSpace.createMap s b sz)) := by
  unfold AddressSpace.createMap
  split_ifs with hd
  · exact ⟨rfl, rfl, fun h => h⟩
  · obtain ⟨e1, e2, e3⟩ := removeRangeList_mono s.maps s (alignDownToPage b)
      (min ((alignDownToPage b + roundUpToPage sz) % WORD) s.addrMask)
    exact ⟨e1, e2, fun h => CntInv_intern (e3 h) (fun t ht => Option.noConfusion ht)⟩

/-- RemoveMap likewise (the tombstone starts with no cached token). -/
theorem removeMap_mono (s : AddressSpace) (b sz : Nat) :
    (AddressSpace.removeMap s b sz).versionCode = s.versionCode ∧
    (AddressSpace.removeMap s b sz).cnt = s.cnt ∧
    (CntInv s → CntInv (AddressSpace.removeMap s b sz)) := by
  unfold AddressSpace.removeMap
  split_ifs with hd
  · exact ⟨rfl, rfl, fun h => h⟩
  · obtain ⟨e1, e2, e3⟩ := removeRangeList_mono s.maps s (alignDownToPage b)
      (min ((alignDownToPage b + roundUpToPage sz) % WORD) s.addrMask)
    exact ⟨e1, e2, fun h => CntInv_intern (e3 h) (fun t ht => Option.noConfusion ht)⟩

/-- Every public operation keeps the versioning flag, never shrinks
the token counter, and preserves the counter invariant. -/
theorem stepOp_mono (s : AddressSpace) (op : Op) :
    (stepOp s op).versionCode = s.versionCode ∧ s.cnt ≤ (stepOp s op).cnt ∧
    (CntInv s → CntInv (stepOp s op)) := by
  cases op with
  | write a bs =>
    obtain ⟨h1, h2, h3, h4, h5, h6, h7⟩ := tryWrite_frame s a bs
    exact ⟨h2, le_of_eq h1.symm, h7⟩
  | computeCV pc =>
    obtain ⟨h1, h2, h3, h4, h5, h6, h7, h8⟩ := computeCV_frame s pc
    exact ⟨h1, h5, h6⟩
  | markHead pc =>
    by_cases h : pc ∈ s.traceHeads
    · have he : stepOp s (Op.markHead pc) = s := by
        show AddressSpace.markAsTraceHead s pc = s
        unfold AddressSpace.markAsTraceHead
        rw [if_pos h]
      rw [he]
      exact ⟨rfl, le_refl _, fun h => h⟩
    · have he : stepOp s (Op.markHead pc) = { s with traceHeads := pc :: s.traceHeads } := by
        show AddressSpace.markAsTraceHead s pc = _
        unfold AddressSpace.markAsTraceHead
        rw [if_neg h]
      rw [he]
      exact ⟨rfl, le_refl _, fun h => h⟩
  | setPerm b sz r w x => exact ⟨rfl, le_refl _, fun h => h⟩
  | mapAdd b sz =>
    obtain ⟨h1, h2, h3⟩ := createMap_mono s b sz
    exact ⟨h1, le_of_eq h2.symm, h3⟩
  | mapRemove b sz =>
    obtain ⟨h1, h2, h3⟩ := removeMap_mono s b sz
    exact ⟨h1, le_of_eq h2.symm, h3⟩

/-- A run of operations inherits the per-operation frame. -/
theorem runOps_mono :
    ∀ (ops : List Op) (s : AddressSpace),
      (runOps s ops).versionCode = s.versionCode ∧ s.cnt ≤ (runOps s ops).cnt ∧
      (CntInv s → CntInv (runOps s ops)) := by
  intro ops
  induction ops with
  | nil => intro s; exact ⟨rfl, le_refl _, fun h => h⟩
  | cons op rest ih =>
    intro s
    obtain ⟨e1, e2, e3⟩ := stepOp_mono s op
    obtain ⟨f1, f2, f3⟩ := ih (stepOp s op)
    exact ⟨f1.trans e1, le_trans e2 f2, fun h => f3 (e3 h)⟩

/-- With versioning on and the counter invariant, every token a run
hands out lies below the final counter: tokens are never reissued. -/
theorem observedTokens_lt :
    ∀ (ops : List Op) (s : AddressSpace), s.versionCode = true → CntInv s →
      ∀ t ∈ observedTokens s ops, t < (runOps s ops).cnt := by
  intro ops
  induction ops with
  | nil => intro s _ _ t ht; exact absurd ht (by simp [observedTokens])
  | cons op rest ih =>
    intro s hv hcnt t ht
    obtain ⟨e1, e2, e3⟩ := stepOp_mono s op
    have hv2 : (stepOp s op).versionCode = true := e1.trans hv
    have hcnt2 : CntInv (stepOp s op) := e3 hcnt
    cases op with
    | computeCV pc =>
      have ht2 : t ∈ [(AddressSpace.computeCodeVersion s pc).1] ++
          observedTokens (stepOp s (Op.computeCV pc)) rest := ht
      rcases List.mem_append.mp ht2 with hh | hh
      · have he : t = (AddressSpace.computeCodeVersion s pc).1 := by simpa using hh
        have htok := (computeCV_frame s pc).2.2.2.2.2.2.1 hv hcnt
        have hrest := (runOps_mono rest (stepOp s (Op.computeCV pc))).2.1
        rw [he]
        exact lt_of_lt_of_le htok hrest
      · exact ih (stepOp s (Op.computeCV pc)) hv2 hcnt2 t hh
    | write a bs =>
      have ht2 : t ∈ ([] : List Nat) ++ observedTokens (stepOp s (Op.write a bs)) rest := ht
      exact ih _ hv2 hcnt2 t (by simpa using ht2)
    | markHead pc =>
      have ht2 : t ∈ ([] : List Nat) ++ observedTokens (stepOp s (Op.markHead pc)) rest := ht
      exact ih _ hv2 hcnt2 t (by simpa using ht2)
    | setPerm b sz r w x =>
      have ht2 : t ∈ ([] : List Nat) ++
          observedTokens (stepOp s (Op.setPerm b sz r w x)) rest := ht
      exact ih _ hv2 hcnt2 t (by simpa using ht2)
    | mapAdd b sz =>
      have ht2 : t ∈ ([] : List Nat) ++ observedTokens (stepOp s (Op.mapAdd b sz)) rest := ht
      exact ih _ hv2 hcnt2 t (by simpa using ht2)
    | mapRemove b sz =>
      have ht2 : t ∈ ([] : List Nat) ++
          observedTokens (stepOp s (Op.mapRemove b sz)) rest := ht
      exact ih _ hv2 hcnt2 t (by simpa using ht2)

/-- MarkAsTraceHead only touches the trace-head set. -/
theorem markHead_step (s : AddressSpace) (pc : Nat) :
    ∃ th, stepOp s (Op.markHead pc) = { s with traceHeads := th } := by
  by_cases h : pc ∈ s.traceHeads
  · refine ⟨s.traceHeads, ?_⟩
    show AddressSpace.markAsTraceHead s pc = _
    unfold AddressSpace.markAsTraceHead
    rw [if_pos h]
  · refine ⟨pc :: s.traceHeads, ?_⟩
    show AddressSpace.markAsTraceHead s pc = _
    unfold AddressSpace.markAsTraceHead
    rw [if_neg h]

/-- Along non-structural operations (reads, writes, version queries,
trace-head marks) the page index, the configuration and the sentinel
id are untouched. -/
theorem runOps_ns_frame :
    ∀ (ops : List Op) (s : AddressSpace), (∀ op ∈ ops, Op.nonStructural op) →
      (runOps s ops).versionCode = s.versionCode ∧
      (runOps s ops).addrMask = s.addrMask ∧
      (runOps s ops).invalidId = s.invalidId ∧
      (∀ p, (runOps s ops).ptm p = s.ptm p) := by
  intro ops
  induction ops with
  | nil => intro s _; exact ⟨rfl, rfl, rfl, fun _ => rfl⟩
  | cons op rest ih =>
    intro s hns
    have hophd := hns op (List.mem_cons_self _ _)
    have htl : ∀ o ∈ rest, Op.nonStructural o :=
      fun o ho => hns o (List.mem_cons_of_mem _ ho)
    obtain ⟨f1, f2, f3, f4⟩ := ih (stepOp s op) htl
    have hhd : (stepOp s op).versionCode = s.versionCode ∧
        (stepOp s op).addrMask = s.addrMask ∧
        (stepOp s op).invalidId = s.invalidId ∧
        (∀ p, (stepOp s op).ptm p = s.ptm p) := by
      cases op with
      | write a bs =>
        obtain ⟨h1, h2, h3, h4, h5, h6, h7⟩ := tryWrite_frame s a bs
        exact ⟨h2, h3, h4, h5⟩
      | computeCV pc =>
        obtain ⟨h1, h2, h3, h4, h5, h6, h7, h8⟩ := computeCV_frame s pc
        exact ⟨h1, h2, h3, h4⟩
      | markHead pc =>
        obtain ⟨th, hth⟩ := markHead_step s pc
        rw [hth]
        exact ⟨rfl, rfl, rfl, fun _ => rfl⟩
      | setPerm b sz r w x => exact hophd.elim
      | mapAdd b sz => exact hophd.elim
      | mapRemove b sz => exact hophd.elim
    exact ⟨f1.trans hhd.1, f2.trans hhd.2.1, f3.trans hhd.2.2.1,
      fun p => (f4 p).trans (hhd.2.2.2 p)⟩

/-- Along non-structural operations the counter invariant persists,
the counter never drops below a past value, and the cached token of a
fixed range, once at or above that value (or absent), stays so:
writes can only drop it, version queries only refill it with a fresh,
larger token. -/
theorem runOps_ns_cvGE :
    ∀ (ops : List Op) (s : AddressSpace) (idW c0 : Nat),
      (∀ op ∈ ops, Op.nonStructural op) → CntInv s → c0 ≤ s.cnt →
      (∀ t, (s.getR idW).cv = some t → c0 ≤ t) →
      CntInv (runOps s ops) ∧ c0 ≤ (runOps s ops).cnt ∧
      (∀ t, ((runOps s ops).getR idW).cv = some t → c0 ≤ t) := by
  intro ops
  induction ops with
  | nil => intro s idW c0 _ hcnt hc0 hcv; exact ⟨hcnt, hc0, hcv⟩
  | cons op rest ih =>
    intro s idW c0 hns hcnt hc0 hcv
    have hophd := hns op (List.mem_cons_self _ _)
    have htl : ∀ o ∈ rest, Op.nonStructural o :=
      fun o ho => hns o (List.mem_cons_of_mem _ ho)
    have hstep : CntInv (stepOp s op) ∧ c0 ≤ (stepOp s op).cnt ∧
        (∀ t, ((stepOp s op).getR idW).cv = some t → c0 ≤ t) := by
      cases op with
      | write a bs =>
        obtain ⟨h1, h2, h3, h4, h5, h6, h7⟩ := tryWrite_frame s a bs
        refine ⟨h7 hcnt, le_of_le_of_eq hc0 h1.symm, ?_⟩
        intro t ht
        have ht2 : ((AddressSpace.tryWrite s a bs).2.getR idW).cv = some t := ht
        rcases h6 idW with hcv2 | hcv2
        · rw [hcv2] at ht2
          exact hcv t ht2
        · rw [hcv2] at ht2
          exact Option.noConfusion ht2
      | computeCV pc =>
        obtain ⟨h1, h2, h3, h4, h5, h6, h7, h8⟩ := computeCV_frame s pc
        refine ⟨h6 hcnt, le_trans hc0 h5, ?_⟩
        intro t ht
        have ht2 : (((AddressSpace.computeCodeVersion s pc).2).getR idW).cv = some t := ht
        rcases h8 idW with hcv2 | ⟨u, hu1, hu2⟩
        · rw [hcv2] at ht2
          exact hcv t ht2
        · rw [hu1] at ht2
          injection ht2 with h9
          rw [← h9]
          exact le_trans hc0 hu2
      | markHead pc =>
        obtain ⟨th, hth⟩ := markHead_step s pc
        rw [hth]
        exact ⟨hcnt, hc0, hcv⟩
      | setPerm b sz r w x => exact hophd.elim
      | mapAdd b sz => exact hophd.elim
      | mapRemove b sz => exact hophd.elim
    exact ih (stepOp s op) idW c0 htl hstep.1 hstep.2.1 hstep.2.2

/-- A write, with code versioning on, to a page that is writable and
executable, landing inside that single page and indexed to a live
range: the trace-head set comes out empty and the range's cached
code-version token comes out dropped, whether or not the byte writes
themselves succeed. -/
theorem tryWrite_smc (s : AddressSpace) (wa : Nat) (bs : List Nat) (idW : Nat)
    (hvc : s.versionCode = true)
    (hptmW : s.ptm (alignDownToPage (s.maskAddr wa)) = some idW)
    (hvW : (s.getR idW).isValid = true)
    (hwrt : s.pageIsWritable (alignDownToPage (s.maskAddr wa)) = true)
    (hexe : s.pageIsExecutable (alignDownToPage (s.maskAddr wa)) = true)
    (hbs : bs ≠ [])
    (hin : s.maskAddr wa + bs.length ≤ alignDownToPage (s.maskAddr wa) + kPageSize)
    (hnw : s.maskAddr wa + bs.length < WORD) :
    (AddressSpace.tryWrite s wa bs).2.traceHeads = [] ∧
    ((AddressSpace.tryWrite s wa bs).2.getR idW).cv = none := by
  set a := s.maskAddr wa with ha
  set P := alignDownToPage a with hP
  have hend : (a + bs.length) % WORD = a + bs.length := Nat.mod_eq_of_lt hnw
  have hPa : P ≤ a := alignDown_le_self a
  have hlen : 0 < bs.length := List.length_pos.mpr hbs
  have hPe : P < a + bs.length := by omega
  have h0 : AddressSpace.tryWrite s wa bs =
      AddressSpace.tryWriteLoop s P a (a + bs.length) bs (bs.length / kPageSize + 2) := by
    show AddressSpace.tryWriteLoop s P a ((a + bs.length) % WORD) bs
      (bs.length / kPageSize + 2) = _
    rw [hend]
  have hfid : s.findRangeIdAligned P = idW := by
    unfold AddressSpace.findRangeIdAligned
    rw [hptmW]
    rfl
  have hvcx : (s.versionCode && s.canExecuteAligned P) = true := by
    unfold AddressSpace.canExecuteAligned
    rw [hvc, hexe]
    rfl
  set v := (s.getR idW).invalidateCodeVersion with hv
  set s1 : AddressSpace := { s.setR idW v with traceHeads := [] } with hs1
  have hlk : lookupStore s.store idW = some (s.getR idW) := getR_isValid_lookup hvW
  have hs1id : s1.getR idW = v := by
    show (s.setR idW v).getR idW = v
    exact getR_setR_present hlk v
  rcases hmw : AddressSpace.mrWriteSeq (s1.getR idW) a (min (a + bs.length) (P + kPageSize)) bs
    with ⟨r2, a2, rest2, ok⟩
  have hrun : AddressSpace.tryWritePageStep s P a (a + bs.length) bs =
      (s1.setR idW r2, a2, rest2, ok) := by
    unfold AddressSpace.tryWritePageStep
    rw [hfid, if_pos hvcx]
    show AddressSpace.tryWritePageRun s1 idW P a (a + bs.length) bs = _
    unfold AddressSpace.tryWritePageRun
    rw [hmw]
  have hwneg : (!s.canWriteAligned P) = false := by
    unfold AddressSpace.canWriteAligned
    rw [hwrt]
    rfl
  have hloop1 : AddressSpace.tryWriteLoop s P a (a + bs.length) bs
      (bs.length / kPageSize + 2) =
      if ok then AddressSpace.tryWriteLoop (s1.setR idW r2) (P + kPageSize) a2
        (a + bs.length) rest2 (bs.length / kPageSize + 1)
      else (false, s1.setR idW r2) := by
    rw [show bs.length / kPageSize + 2 = (bs.length / kPageSize + 1) + 1 from rfl,
      tryWriteLoop_succ, if_pos hPe, if_neg (by rw [hwneg]; exact Bool.false_ne_true), hrun]
  have hloop2 : (AddressSpace.tryWriteLoop s P a (a + bs.length) bs
      (bs.length / kPageSize + 2)).2 = s1.setR idW r2 := by
    rw [hloop1]
    cases ok with
    | false => rfl
    | true =>
      rw [if_pos rfl,
        show bs.length / kPageSize + 1 = bs.length / kPageSize + 1 from rfl,
        tryWriteLoop_succ, if_neg (by omega)]
  have hfin : (AddressSpace.tryWrite s wa bs).2 = s1.setR idW r2 := by
    rw [h0, hloop2]
  have hlk1 : lookupStore s1.store idW = some v := by
    show lookupStore (setStore s.store idW v) idW = some v
    rw [lookup_setStore_self, hlk]
    rfl
  have hmw2 : AddressSpace.mrWriteN (s1.getR idW) a bs
      (min (a + bs.length) (P + kPageSize) - a) = (r2, a2, rest2, ok) := hmw
  have hr2cv : r2.cv = (s1.getR idW).cv := by
    have hf := (mrWriteN_frame (min (a + bs.length) (P + kPageSize) - a)
      (s1.getR idW) a bs).2.2.2
    rw [hmw2] at hf
    exact hf
  constructor
  · rw [hfin]
    rfl
  · rw [hfin]
    have hg : (s1.setR idW r2).getR idW = r2 := getR_setR_present hlk1 r2
    rw [hg, hr2cv, hs1id]
    rfl

/-- The constructed address space satisfies the counter invariant:
its only range, the sentinel, has no cached token. -/
theorem CntInv_init (mask : Nat) (vc : Bool) : CntInv (AddressSpace.init mask vc) := by
  intro k r hm
  have hm2 : (k, r) ∈ [(0, MappedRange.createInvalid 0 mask)] := hm
  have he : (k, r) = (0, MappedRange.createInvalid 0 mask) := by simpa using hm2
  injection he with h1 h2
  rw [h2]
  intro t ht
  exact Option.noConfusion ht

/-- C1: with code versioning enabled, a write (of any size fitting the
page, through the byte path all widths funnel into) to a page that is
writable and executable clears the trace-head set and invalidates the
containing range's cached code version, so that after any further
non-structural activity, computing the code version at a pc on that
page yields a token different from every token observed before the
write: freshly issued tokens always exceed the pre-write counter,
while every previously observed token lies below it. -/
theorem c1_smc_freshness (s0 : AddressSpace) (ops1 : List Op) (wa : Nat) (bs : List Nat)
    (ops2 : List Op) (pc : Nat) (idW : Nat)
    (hvc : s0.versionCode = true)
    (hcnt : CntInv s0)
    (hns : ∀ op ∈ ops2, Op.nonStructural op)
    (hptmW : (runOps s0 ops1).ptm
      (alignDownToPage ((runOps s0 ops1).maskAddr wa)) = some idW)
    (hvW : ((runOps s0 ops1).getR idW).isValid = true)
    (hwrt : (runOps s0 ops1).pageIsWritable
      (alignDownToPage ((runOps s0 ops1).maskAddr wa)) = true)
    (hexe : (runOps s0 ops1).pageIsExecutable
      (alignDownToPage ((runOps s0 ops1).maskAddr wa)) = true)
    (hbs : bs ≠ [])
    (hin : (runOps s0 ops1).maskAddr wa + bs.length ≤
      alignDownToPage ((runOps s0 ops1).maskAddr wa) + kPageSize)
    (hnw : (runOps s0 ops1).maskAddr wa + bs.length < WORD)
    (hpc : alignDownToPage ((runOps s0 ops1).maskAddr pc) =
      alignDownToPage ((runOps s0 ops1).maskAddr wa)) :
    (AddressSpace.tryWrite (runOps s0 ops1) wa bs).2.traceHeads = [] ∧
    ∀ t ∈ observedTokens s0 ops1,
      (AddressSpace.computeCodeVersion
        (runOps (AddressSpace.tryWrite (runOps s0 ops1) wa bs).2 ops2) pc).1 ≠ t := by
  set s1 := runOps s0 ops1 with hs1
  obtain ⟨hm1, hm2, hm3⟩ := runOps_mono ops1 s0
  have hvc1 : s1.versionCode = true := hm1.trans hvc
  have hcnt1 : CntInv s1 := hm3 hcnt
  have htoks : ∀ t ∈ observedTokens s0 ops1, t < s1.cnt := observedTokens_lt ops1 s0 hvc hcnt
  obtain ⟨hth, hcvnone⟩ := tryWrite_smc s1 wa bs idW hvc1 hptmW hvW hwrt hexe hbs hin hnw
  refine ⟨hth, ?_⟩
  obtain ⟨hw1, hw2, hw3, hw4, hw5, hw6, hw7⟩ := tryWrite_frame s1 wa bs
  have hcntW : CntInv (AddressSpace.tryWrite s1 wa bs).2 := hw7 hcnt1
  have hgz : ∀ t, ((AddressSpace.tryWrite s1 wa bs).2.getR idW).cv = some t → s1.cnt ≤ t := by
    intro t ht
    rw [hcvnone] at ht
    exact Option.noConfusion ht
  obtain ⟨hk1, hk2, hk3⟩ := runOps_ns_cvGE ops2 (AddressSpace.tryWrite s1 wa bs).2 idW s1.cnt
    hns hcntW (le_of_eq hw1.symm) hgz
  obtain ⟨hf1, hf2, hf3, hf4⟩ := runOps_ns_frame ops2 (AddressSpace.tryWrite s1 wa bs).2 hns
  have hvcF : (runOps (AddressSpace.tryWrite s1 wa bs).2 ops2).versionCode = true :=
    hf1.trans (hw2.trans hvc1)
  have hmaskF : (runOps (AddressSpace.tryWrite s1 wa bs).2 ops2).maskAddr pc =
      s1.maskAddr pc := by
    unfold AddressSpace.maskAddr
    rw [hf2, hw3]
  have hidF : (runOps (AddressSpace.tryWrite s1 wa bs).2 ops2).findRangeId
      ((runOps (AddressSpace.tryWrite s1 wa bs).2 ops2).maskAddr pc) = idW := by
    unfold AddressSpace.findRangeId AddressSpace.findRangeIdAligned
    rw [hmaskF, hpc, hf4, hw5, hptmW]
    rfl
  intro t ht
  have htlt : t < s1.cnt := htoks t ht
  cases hcvF : ((runOps (AddressSpace.tryWrite s1 wa bs).2 ops2).getR idW).cv with
  | some u =>
    have hu : s1.cnt ≤ u := hk3 u hcvF
    have htok : (AddressSpace.computeCodeVersion
        (runOps (AddressSpace.tryWrite s1 wa bs).2 ops2) pc).1 = u := by
      rw [computeCV_eq, if_pos hvcF, hidF, hcvF]
    rw [htok]
    omega
  | none =>
    have htok : (AddressSpace.computeCodeVersion
        (runOps (AddressSpace.tryWrite s1 wa bs).2 ops2) pc).1 =
        (runOps (AddressSpace.tryWrite s1 wa bs).2 ops2).cnt := by
      rw [computeCV_eq, if_pos hvcF, hidF, hcvF]
    rw [htok]
    omega

/-- C1 witnessed: on the versioned space with an R+W+X page at 0x1000
whose code version was observed once (token 1), the byte write at
0x1500 clears the trace heads, and after an unrelated version query
the version recomputed at 0x1800 differs from every observed token. -/
theorem c1_smc_freshness_witness :
    (AddressSpace.tryWrite (runOps c1s0 c1ops1) 0x1500 [0xCC]).2.traceHeads = [] ∧
    ∀ t ∈ observedTokens c1s0 c1ops1,
      (AddressSpace.computeCodeVersion
        (runOps (AddressSpace.tryWrite (runOps c1s0 c1ops1) 0x1500 [0xCC]).2 c1ops2)
        0x1800).1 ≠ t :=
  c1_smc_freshness c1s0 c1ops1 0x1500 [0xCC] c1ops2 0x1800 3 rfl (CntInv_init mask64 true)
    (fun op hop => by rw [List.mem_singleton.mp hop]; trivial)
    (by decide) (by decide) (by decide) (by decide) (by decide) (by decide) (by decide)
    (by decide)

end Vmill
